import Mathlib

/-!
# A verification development for `runtime.c` (dyedgreen/brainfuck)

The file embeds the three parts of `src/runtime.c` in Lean:

* the loader, the validate and compact phase of `readFile` (lines 60 to 128),
* the tape, `makeTape`, `seekTape` and `printTape` (lines 131 to 205),
* the engine, `run` (lines 207 to 283),
* the part of `main` behind the reading of the flags (lines 332 to 347).

Modelling conventions.

* A `char` of the source file or of the script is a `Char`, one per byte.
* A tape cell is a `char`, taken to be signed and eight bits wide as on x86: its value is an
  `Int` between `-128` and `127`, and storing an `int` into it goes through `toChar`.
* The C `int` and `long` counters (`line`, `open_loops`, `inst_count`, `i`, `pos`) are unbounded
  `Int` or `Nat`: they only overflow on inputs of two gigabytes and more.
* An array is a `List`; a read outside it is undefined behaviour in C and a `fault` here.
* The chain of blocks with the pointer to the current block is a zipper: the blocks to the left
  (nearest first), the current block, the blocks to the right (nearest first).
* `malloc` is an explicit resource: the loader is given what its call returns, the engine carries
  the number of blocks the allocator can still supply.
* `stdin` and `stdout` are lists of bytes.
-/

namespace Brainfuck

/-! ## Constants -/

/-- Cells per block, `#define TAPE_WIDTH 64`. -/
def TAPE_WIDTH : Nat := 64

/-- The end sentinel of a script, the C character `'\0'`. -/
def NUL : Char := Char.ofNat 0

/-- The bytes of a string. -/
def bytes (s : String) : List Nat := s.toList.map Char.toNat

/-- The text of `ERROR_MEMORY`. -/
def ERROR_MEMORY : List Nat := bytes "\x1b[1;31mError:\x1b[0m Insufficient memory.\n"

/-- The value `getchar` returns at the end of the input (`EOF` of `stdio.h`). -/
def EOF : Int := -1

/-! ## The loader: `readFile`, lines 60 to 128 -/

/-- How `readFile` can fail after the file has been read. -/
inductive LoadError where
  /-- The text `printf(ERROR_BRACKETS, line)`, then `return NULL`. -/
  | brackets (line : Int)
  /-- The text `printf(ERROR_MEMORY)`, then `return NULL`. -/
  | memory
  deriving DecidableEq, Repr

/-- The local variables of the counting loop (lines 61 to 65). -/
structure Counters where
  inst_count : Nat
  line : Int
  line_last_open : Int
  line_last_close : Int
  open_loops : Int
  deriving DecidableEq, Repr

/-- Their initial values: `inst_count = 0, line = 1, line_last_open = 0, line_last_close = 0,
open_loops = 0`. -/
def Counters.init : Counters :=
  { inst_count := 0, line := 1, line_last_open := 0, line_last_close := 0, open_loops := 0 }

/-- One pass through the body of the counting loop, the `switch` of lines 67 to 96: the counters
after it, or the line of the error reported at line 79. -/
def countChar (k : Counters) (c : Char) : Except Int Counters :=
  if c = '[' ∨ c = ']' then
    let k1 : Counters :=
      if c = '[' then { k with open_loops := k.open_loops + 1, line_last_open := k.line }
      else { k with open_loops := k.open_loops - 1, line_last_close := k.line }
    if k1.open_loops < 0 then .error k1.line_last_close
    else .ok { k1 with inst_count := k1.inst_count + 1 }
  else if c = '>' ∨ c = '<' ∨ c = '+' ∨ c = '-' ∨ c = '.' ∨ c = ',' then
    .ok { k with inst_count := k.inst_count + 1 }
  else if c = '\n' then .ok { k with line := k.line + 1 }
  else .ok k

/-- The counting loop `for (int i = 0; i < len; i ++)` of lines 66 to 97 over the bytes of the
buffer that are still to come. -/
def countLoop : List Char → Counters → Except Int Counters
  | [], k => .ok k
  | c :: rest, k =>
    match countChar k c with
    | .error line => .error line
    | .ok k1 => countLoop rest k1

/-- The `case` labels of the second `switch` (lines 114 to 121). -/
def isInstruction (c : Char) : Bool :=
  c = '>' || c = '<' || c = '+' || c = '-' || c = '[' || c = ']' || c = '.' || c = ','

/-- The copying loop `for (int i = 0, j = 0; i < len; i ++)` of lines 112 to 126: `script[j] =
buffer[i]; j ++` for every instruction of the buffer. It returns the array and `j`. -/
def copyLoop : List Char → List Char → Nat → List Char × Nat
  | [], script, j => (script, j)
  | c :: rest, script, j =>
    if isInstruction c then copyLoop rest (script.set j c) (j + 1)
    else copyLoop rest script j

/-- The call `malloc(n * sizeof(char))`. `heap` is what the allocator does: `none` when it returns
`NULL`, and otherwise the bytes that the fresh array happens to hold, cell by cell. -/
def malloc (heap : Option (Nat → Char)) (n : Nat) : Option (List Char) :=
  heap.map fun junk => (List.range n).map junk

/-- Lines 60 to 128 of `readFile`: count and check, allocate, copy, terminate. `buffer` is the
content of the file. -/
def readFile (heap : Option (Nat → Char)) (buffer : List Char) : Except LoadError (List Char) :=
  match countLoop buffer Counters.init with
  | .error line => .error (.brackets line)
  | .ok k =>
    if k.open_loops ≠ 0 then
      .error (.brackets (if k.open_loops > 0 then k.line_last_open else k.line_last_close))
    else
      match malloc heap (k.inst_count + 1) with
      | none => .error .memory
      | some script => .ok ((copyLoop buffer script 0).1.set k.inst_count NUL)

/-! ## The tape: lines 18 to 22 and 131 to 191 -/

/-- The array `char data[TAPE_WIDTH]` of one block. -/
abbrev Block := List Int

/-- A pointer to a block of the chain, with the chain: `prev` are the blocks reached through
`->prev` (nearest first, `[]` when `->prev == NULL`), `data` is the array of the block itself,
`next` the blocks reached through `->next`. -/
structure Tape where
  prev : List Block
  data : Block
  next : List Block
  deriving DecidableEq, Repr

inductive Direction where
  | Left
  | Right
  deriving DecidableEq, Repr

inductive PrintStyle where
  | Char
  | Int
  deriving DecidableEq, Repr

/-- Conversion of an `int` to the signed eight bit `char`. -/
def toChar (v : Int) : Int := (v + 128) % 256 - 128

/-- Function `makeTape` (lines 131 to 142): `malloc` of one block, all cells zero, no neighbours.
`heap` is the number of blocks the allocator can still supply; the result is the block (`none`
for `NULL`) and what is left of the heap. -/
def makeTape (heap : Nat) : Option Tape × Nat :=
  match heap with
  | 0 => (none, 0)
  | h + 1 => (some { prev := [], data := List.replicate TAPE_WIDTH 0, next := [] }, h)

/-- What `seekTape` leaves behind: its return value, `*tape`, `*pos` and the heap. -/
structure Seek where
  ok : Bool
  tape : Tape
  pos : Int
  heap : Nat
  deriving DecidableEq, Repr

/-- Function `seekTape` (lines 158 to 191). -/
def seekTape (heap : Nat) (tape : Tape) (pos : Int) : Direction → Seek
  | .Left =>
    let pos := pos - 1
    if pos < 0 ∧ tape.prev = [] then
      match makeTape heap with
      | (none, heap) => { ok := false, tape := tape, pos := pos, heap := heap }
      | (some ext, heap) =>
        { ok := true
          tape := { prev := ext.prev, data := ext.data, next := tape.data :: tape.next }
          pos := (TAPE_WIDTH : Int) - 1
          heap := heap }
    else if pos < 0 then
      match tape.prev with
      | [] => { ok := true, tape := tape, pos := pos, heap := heap }
      | b :: more =>
        { ok := true
          tape := { prev := more, data := b, next := tape.data :: tape.next }
          pos := (TAPE_WIDTH : Int) - 1
          heap := heap }
    else { ok := true, tape := tape, pos := pos, heap := heap }
  | .Right =>
    let pos := pos + 1
    if pos ≥ (TAPE_WIDTH : Int) ∧ tape.next = [] then
      match makeTape heap with
      | (none, heap) => { ok := false, tape := tape, pos := pos, heap := heap }
      | (some ext, heap) =>
        { ok := true
          tape := { prev := tape.data :: tape.prev, data := ext.data, next := ext.next }
          pos := 0
          heap := heap }
    else if pos ≥ (TAPE_WIDTH : Int) then
      match tape.next with
      | [] => { ok := true, tape := tape, pos := pos, heap := heap }
      | b :: more =>
        { ok := true
          tape := { prev := tape.data :: tape.prev, data := b, next := more }
          pos := 0
          heap := heap }
    else { ok := true, tape := tape, pos := pos, heap := heap }

/-- The read `tape->data[pos]`; `none` outside the array. -/
def readCell (tape : Tape) (pos : Int) : Option Int :=
  if 0 ≤ pos then tape.data[pos.toNat]? else none

/-- The write `tape->data[pos] = v`. -/
def writeCell (tape : Tape) (pos : Int) (v : Int) : Tape :=
  { tape with data := tape.data.set pos.toNat v }

/-! ## The engine: `run`, lines 207 to 283 -/

/-- The read `script[i]`; `none` outside the array. -/
def readScript (script : List Char) (i : Int) : Option Char :=
  if 0 ≤ i then script[i.toNat]? else none

/-- The variables of `run` together with the world it acts on. -/
structure State where
  /-- The instruction pointer `i`. -/
  i : Int
  tape : Tape
  pos : Int
  /-- Blocks the allocator can still supply. -/
  heap : Nat
  /-- Bytes `getchar` has still to deliver. -/
  stdin : List Nat
  /-- Bytes written so far. -/
  stdout : List Nat
  deriving DecidableEq, Repr

/-- The first pass through the `switch` of lines 211 to 281 ends in one of three ways. -/
inductive Outcome where
  /-- A `break`: the `while` loop goes on. -/
  | next (s : State)
  /-- The text `printf(ERROR_MEMORY); return;`. -/
  | memory (s : State)
  /-- A read or write outside an array. -/
  | fault
  deriving DecidableEq, Repr

/-- The loop of lines 253 to 260, `while (open_loops > 0)`. `ahead` is the part of the script
array from index `i` on; reading past its end is a fault. The result is the final `i`. -/
def scanForward : List Char → Int → Int → Option Int
  | [], open_loops, i => if open_loops > 0 then none else some i
  | c :: ahead, open_loops, i =>
    if open_loops > 0 then
      if c = '[' then scanForward ahead (open_loops + 1) (i + 1)
      else if c = ']' then scanForward ahead (open_loops - 1) (i + 1)
      else scanForward ahead open_loops (i + 1)
    else some i

/-- The loop of lines 270 to 277, `while (open_loops > 0)`. `behind` is the part of the script
array from index `i` down to index `0`; reading below index `0` is a fault. The result is the
final `i`. -/
def scanBackward : List Char → Int → Int → Option Int
  | [], open_loops, i => if open_loops > 0 then none else some i
  | c :: behind, open_loops, i =>
    if open_loops > 0 then
      if c = '[' then scanBackward behind (open_loops - 1) (i - 1)
      else if c = ']' then scanBackward behind (open_loops + 1) (i - 1)
      else scanBackward behind open_loops (i - 1)
    else some i

/-- The decimal digits of a number, as bytes. -/
def decimal (n : Nat) : List Nat := (Nat.toDigits 10 n).map Char.toNat

/-- The bytes `printf("%d ", v)` writes. -/
def printfInt (v : Int) : List Nat :=
  (if v < 0 then [('-').toNat] else []) ++ decimal v.natAbs ++ [(' ').toNat]

/-- The byte `putchar(v)` writes: `v` converted to `unsigned char`. -/
def putchar (v : Int) : Nat := (v % 256).toNat

/-- The call `getchar()`: the next byte, or `EOF`. -/
def getchar : List Nat → Int × List Nat
  | [] => (EOF, [])
  | b :: rest => ((b : Int), rest)

/-- One pass through the body of the `while` loop of `run`: the `switch (script[i])` of lines
211 to 281. -/
def step (print_style : PrintStyle) (script : List Char) (s : State) : Outcome :=
  match readScript script s.i with
  | none => .fault
  | some c =>
    if c = '>' then
      let r := seekTape s.heap s.tape s.pos .Right
      if r.ok then .next { s with tape := r.tape, pos := r.pos, heap := r.heap, i := s.i + 1 }
      else .memory { s with pos := r.pos, heap := r.heap, stdout := s.stdout ++ ERROR_MEMORY }
    else if c = '<' then
      let r := seekTape s.heap s.tape s.pos .Left
      if r.ok then .next { s with tape := r.tape, pos := r.pos, heap := r.heap, i := s.i + 1 }
      else .memory { s with pos := r.pos, heap := r.heap, stdout := s.stdout ++ ERROR_MEMORY }
    else if c = '+' then
      match readCell s.tape s.pos with
      | none => .fault
      | some v => .next { s with tape := writeCell s.tape s.pos (toChar (v + 1)), i := s.i + 1 }
    else if c = '-' then
      match readCell s.tape s.pos with
      | none => .fault
      | some v => .next { s with tape := writeCell s.tape s.pos (toChar (v - 1)), i := s.i + 1 }
    else if c = '.' then
      match readCell s.tape s.pos with
      | none => .fault
      | some v =>
        if print_style = .Int then .next { s with stdout := s.stdout ++ printfInt v, i := s.i + 1 }
        else .next { s with stdout := s.stdout ++ [putchar v], i := s.i + 1 }
    else if c = ',' then
      match readCell s.tape s.pos with
      | none => .fault
      | some _ =>
        let g := getchar s.stdin
        .next { s with tape := writeCell s.tape s.pos (toChar g.1), stdin := g.2, i := s.i + 1 }
    else if c = '[' then
      match readCell s.tape s.pos with
      | none => .fault
      | some v =>
        if v ≠ 0 then .next { s with i := s.i + 1 }
        else
          match scanForward (script.drop (s.i + 1).toNat) 1 (s.i + 1) with
          | none => .fault
          | some j => .next { s with i := j }
    else if c = ']' then
      match readCell s.tape s.pos with
      | none => .fault
      | some v =>
        if v = 0 then .next { s with i := s.i + 1 }
        else
          match scanBackward (script.take s.i.toNat).reverse 1 (s.i - 1) with
          | none => .fault
          | some j => .next { s with i := j + 2 }
    else .next s

/-- How `run` ends. -/
inductive Result where
  /-- The loop condition `script[i] != '\0'` failed: the pointer is on the end sentinel. -/
  | halted (s : State)
  /-- The `return` after `printf(ERROR_MEMORY)`. -/
  | aborted (s : State)
  /-- A read or write outside an array. -/
  | fault
  /-- The loop is still running after `fuel` passes. -/
  | running (s : State)
  deriving DecidableEq, Repr

/-- The loop `while (script[i] != '\0')` of `run`, cut off after `fuel` passes. -/
def runLoop (print_style : PrintStyle) (script : List Char) : Nat → State → Result
  | 0, s => .running s
  | fuel + 1, s =>
    match readScript script s.i with
    | none => .fault
    | some c =>
      if c = NUL then .halted s
      else
        match step print_style script s with
        | .fault => .fault
        | .memory s1 => .aborted s1
        | .next s1 => runLoop print_style script fuel s1

/-- Function `run` (lines 207 to 283): `i = 0`, `pos = 0`, then the loop. -/
def run (fuel : Nat) (script : List Char) (tape : Tape) (print_style : PrintStyle)
    (heap : Nat) (stdin stdout : List Nat) : Result :=
  runLoop print_style script fuel
    { i := 0, tape := tape, pos := 0, heap := heap, stdin := stdin, stdout := stdout }

/-! ## The vocabulary of the specification -/

/-- Number of `[` minus number of `]` in a text. -/
def depth (s : List Char) : Int := (s.count '[' : Int) - (s.count ']' : Int)

/-- Balanced and properly nested: every prefix has at least as many `[` as `]`, and the totals
are equal. -/
def Balanced (s : List Char) : Prop :=
  (∀ n, n ≤ s.length → (s.take n).count ']' ≤ (s.take n).count '[') ∧ s.count '[' = s.count ']'

instance (s : List Char) : Decidable (Balanced s) := by
  unfold Balanced
  infer_instance

/-- The `[` at index `i` and the `]` at index `m` match under proper nesting: the text strictly
between them is balanced. -/
def Matches (s : List Char) (i m : Nat) : Prop :=
  i < m ∧ s[i]? = some '[' ∧ s[m]? = some ']' ∧ Balanced ((s.drop (i + 1)).take (m - (i + 1)))

instance (s : List Char) (i m : Nat) : Decidable (Matches s i m) := by
  unfold Matches
  infer_instance

/-- A script as `run` receives it: the instructions, then the end sentinel. -/
def terminated (body : List Char) : List Char := body ++ [NUL]

/-- The eight instruction symbols. -/
def SYMBOLS : List Char := ['>', '<', '+', '-', '[', ']', '.', ',']

/-- The source text with everything that is not one of the eight symbols removed. -/
def stripped (src : List Char) : List Char := src.filter fun c => decide (c ∈ SYMBOLS)

/-- The line of index `p` of a text, counted from 1: one more than the number of newline
characters before it. -/
def lineOf (src : List Char) (p : Nat) : Int := 1 + ((src.take p).count '\n' : Int)

/-- No prefix of the text has more `]` than `[`. -/
def NeverNegative (src : List Char) : Prop :=
  ∀ n, n ≤ src.length → (src.take n).count ']' ≤ (src.take n).count '['

instance (src : List Char) : Decidable (NeverNegative src) := by
  unfold NeverNegative
  infer_instance

/-- The `[` at index `p` has no matching `]` under proper nesting. -/
def UnmatchedOpen (src : List Char) (p : Nat) : Prop :=
  src[p]? = some '[' ∧ ∀ m, m < src.length → ¬ Matches src p m

instance (src : List Char) (p : Nat) : Decidable (UnmatchedOpen src p) := by
  unfold UnmatchedOpen
  infer_instance

/-- Index `p` holds the last `[` of the text that has no matching `]`. -/
def LastUnmatchedOpen (src : List Char) (p : Nat) : Prop :=
  UnmatchedOpen src p ∧ ∀ q, q < src.length → p < q → ¬ UnmatchedOpen src q

instance (src : List Char) (p : Nat) : Decidable (LastUnmatchedOpen src p) := by
  unfold LastUnmatchedOpen
  infer_instance

/-- Index `p` holds the last `[` of the text, matched or not. -/
def LastOpen (src : List Char) (p : Nat) : Prop :=
  src[p]? = some '[' ∧ ∀ q, q < src.length → p < q → src[q]? ≠ some '['

instance (src : List Char) (p : Nat) : Decidable (LastOpen src p) := by
  unfold LastOpen
  infer_instance

/-- The invariant of the cursor: the offset is inside the current block, and every block of the
chain has `TAPE_WIDTH` cells. -/
def CursorValid (tape : Tape) (pos : Int) : Prop :=
  0 ≤ pos ∧ pos < (TAPE_WIDTH : Int) ∧ tape.data.length = TAPE_WIDTH ∧
    (∀ b ∈ tape.prev, b.length = TAPE_WIDTH) ∧ (∀ b ∈ tape.next, b.length = TAPE_WIDTH)

instance (tape : Tape) (pos : Int) : Decidable (CursorValid tape pos) := by
  unfold CursorValid
  infer_instance

/-! ## The dump of the tape and the main program: lines 192 to 205 and 332 to 347 -/

/-- The loop `while(tape->prev != NULL) tape = tape->prev` at the head of `printTape`, on the
blocks to the left, the current block and the blocks to the right. -/
def rewind : List Block → Block → List Block → Tape
  | [], data, next => { prev := [], data := data, next := next }
  | b :: more, data, next => rewind more b (data :: next)

/-- The bytes `printf("[%d]", v)` writes. -/
def printfCell (v : Int) : List Nat :=
  [('[').toNat] ++ (if v < 0 then [('-').toNat] else []) ++ decimal v.natAbs ++ [(']').toNat]

/-- The loop `for (int i = 0; i < TAPE_WIDTH; i ++) printf("[%d]", tape->data[i])`, with `n`
rounds still to go from index `i`; `none` when it reads outside the array. -/
def printCells (data : Block) : Nat → Nat → Option (List Nat)
  | 0, _ => some []
  | n + 1, i =>
    match data[i]? with
    | none => none
    | some v =>
      match printCells data n (i + 1) with
      | none => none
      | some text => some (printfCell v ++ text)

/-- The loop `while(tape != NULL)` of `printTape` over the current block and the blocks reached
through `->next`: the cells of the block, a newline, then `tape = tape->next`. -/
def printBlocks : List Block → Option (List Nat)
  | [] => some []
  | data :: next =>
    match printCells data TAPE_WIDTH 0 with
    | none => none
    | some line =>
      match printBlocks next with
      | none => none
      | some text => some (line ++ bytes "\n" ++ text)

/-- Function `printTape` (lines 192 to 205): the bytes it writes, `none` when it reads outside a
block. It only moves its own copy of the pointer. -/
def printTape (tape : Tape) : Option (List Nat) :=
  let first := rewind tape.prev tape.data tape.next
  match printBlocks (first.data :: first.next) with
  | none => none
  | some text => some (bytes "START OF TAPE\n" ++ text ++ bytes "END OF TAPE\n")

/-- The text `readFile` has printed when it returns `NULL`: `ERROR_BRACKETS` with the line, or
`ERROR_MEMORY`. -/
def errorText : LoadError → List Nat
  | .brackets line =>
    bytes "\x1b[1;31mError:\x1b[0m Miss-matched bracket on line " ++
      (if line < 0 then [('-').toNat] else []) ++ decimal line.natAbs ++ bytes ".\n"
  | .memory => ERROR_MEMORY

/-- How the program ends. -/
inductive Exit where
  /-- The text `return 0`, with everything written to the standard output. -/
  | done (stdout : List Nat)
  /-- A read or write outside an array. -/
  | fault
  /-- The loop of `run` is still running after `fuel` passes. -/
  | running
  deriving DecidableEq, Repr

/-- Lines 332 to 347 of `main`, with the flags `-i` and `-m` already read and the content of
the file in `buffer`: `readFile`, `makeTape`, `run`, the newline, the dump when `m_debug` is set.
The function `run` returns nothing, so what follows it is the same after the `return` at a failed
allocation and after the end of the loop. The pointer `tape` of `main` still points to the first
block, a block of the chain that `run` leaves behind, and `printTape` starts by going to the
leftmost block of that chain. -/
def main (fuel : Nat) (m_print_int m_debug : Bool) (scriptHeap : Option (Nat → Char))
    (buffer : List Char) (heap : Nat) (stdin : List Nat) : Exit :=
  match readFile scriptHeap buffer with
  | .error e => .done (errorText e)
  | .ok script =>
    match makeTape heap with
    | (none, _) => .done ERROR_MEMORY
    | (some tape, heap) =>
      match run fuel script tape (if m_print_int then .Int else .Char) heap stdin [] with
      | .running _ => .running
      | .fault => .fault
      | .halted s | .aborted s =>
        if m_debug then
          match printTape s.tape with
          | none => .fault
          | some dump => .done (s.stdout ++ bytes "\n" ++ dump)
        else .done (s.stdout ++ bytes "\n")

/-- The blocks of the chain from the leftmost to the rightmost. -/
def chain (tape : Tape) : List Block := tape.prev.reverse ++ tape.data :: tape.next

/-- Every block of the chain has `TAPE_WIDTH` cells. -/
def BlocksWide (tape : Tape) : Prop := ∀ b ∈ chain tape, b.length = TAPE_WIDTH

instance (tape : Tape) : Decidable (BlocksWide tape) := by
  unfold BlocksWide
  infer_instance

/-- The indices at which the loop of lines 253 to 260 reads `script[i]`, in the order of the
reads; a read past the end of the array, when the loop comes to one, is in the list. -/
def scanForwardReads : List Char → Int → Int → List Int
  | [], open_loops, i => if open_loops > 0 then [i] else []
  | c :: ahead, open_loops, i =>
    if open_loops > 0 then
      i :: (if c = '[' then scanForwardReads ahead (open_loops + 1) (i + 1)
        else if c = ']' then scanForwardReads ahead (open_loops - 1) (i + 1)
        else scanForwardReads ahead open_loops (i + 1))
    else []

/-- The indices at which the loop of lines 270 to 277 reads `script[i]`, in the order of the
reads; a read below index `0`, when the loop comes to one, is in the list. -/
def scanBackwardReads : List Char → Int → Int → List Int
  | [], open_loops, i => if open_loops > 0 then [i] else []
  | c :: behind, open_loops, i =>
    if open_loops > 0 then
      i :: (if c = '[' then scanBackwardReads behind (open_loops - 1) (i - 1)
        else if c = ']' then scanBackwardReads behind (open_loops + 1) (i - 1)
        else scanBackwardReads behind open_loops (i - 1))
    else []

/-- The address of the cursor in the unbounded array that the tape stands for: 64 times the
index of the current block, counted from the starting block, plus the offset. `origin` is the
number of blocks to the left of the starting block. -/
def address (origin : Nat) (tape : Tape) (pos : Int) : Int :=
  (TAPE_WIDTH : Int) * ((tape.prev.length : Int) - (origin : Int)) + pos

/-- The unbounded array that the tape stands for: the cell at an integer address, which is 0
outside the allocated blocks. -/
def contents (origin : Nat) (tape : Tape) (a : Int) : Int :=
  if 0 ≤ (origin : Int) + a / (TAPE_WIDTH : Int) then
    match (chain tape)[((origin : Int) + a / (TAPE_WIDTH : Int)).toNat]? with
    | none => 0
    | some data => (data[(a % (TAPE_WIDTH : Int)).toNat]?).getD 0
  else 0

/-- The number of blocks to the left of the starting block after a `seekTape`: one more when
the seek has put a new block at the left end of the chain. -/
def originAfter (origin : Nat) (tape : Tape) (pos : Int) : Direction → Nat
  | .Left => if pos - 1 < 0 ∧ tape.prev = [] then origin + 1 else origin
  | .Right => origin

/-! ## Properties -/

/-! ### Bracket depth -/

theorem depth_nil : depth [] = 0 := by simp [depth]

theorem depth_cons (c : Char) (s : List Char) :
    depth (c :: s) = (if c = '[' then 1 else if c = ']' then -1 else 0) + depth s := by
  unfold depth
  by_cases h1 : c = '['
  · subst h1
    simp [List.count_cons]
    ring
  · by_cases h2 : c = ']'
    · subst h2
      simp [List.count_cons]
      ring
    · have h3 : ¬ ('[' = c) := fun h => h1 h.symm
      have h4 : ¬ (']' = c) := fun h => h2 h.symm
      simp [List.count_cons, h1, h2, h3, h4]

theorem depth_append (s t : List Char) : depth (s ++ t) = depth s + depth t := by
  unfold depth
  simp [List.count_append]
  ring

theorem depth_reverse (s : List Char) : depth s.reverse = depth s := by
  unfold depth
  simp

theorem balanced_iff_depth (s : List Char) :
    Balanced s ↔ (∀ n, n ≤ s.length → 0 ≤ depth (s.take n)) ∧ depth s = 0 := by
  unfold Balanced depth
  constructor
  · rintro ⟨h1, h2⟩
    refine ⟨fun n hn => ?_, ?_⟩
    · have := h1 n hn
      omega
    · omega
  · rintro ⟨h1, h2⟩
    refine ⟨fun n hn => ?_, ?_⟩
    · have := h1 n hn
      omega
    · omega

/-! ### The two scans of the engine -/

theorem scanForward_done (ahead : List Char) (d i : Int) (h : ¬ 0 < d) :
    scanForward ahead d i = some i := by
  cases ahead <;> simp [scanForward, h]

theorem scanBackward_done (behind : List Char) (d i : Int) (h : ¬ 0 < d) :
    scanBackward behind d i = some i := by
  cases behind <;> simp [scanBackward, h]

/-- The forward scan stops just behind the first `]` that brings the depth to zero. -/
theorem scanForward_spec (ahead : List Char) :
    ∀ (d i : Int), 0 < d → (∃ n, n ≤ ahead.length ∧ d + depth (ahead.take n) ≤ 0) →
      ∃ m, m < ahead.length ∧ ahead[m]? = some ']' ∧ d - 1 + depth (ahead.take m) = 0 ∧
        (∀ n, n ≤ m → 0 ≤ d - 1 + depth (ahead.take n)) ∧
        scanForward ahead d i = some (i + m + 1) := by
  induction ahead with
  | nil =>
    rintro d i hd ⟨n, hn, h⟩
    simp at hn
    subst hn
    simp [depth_nil] at h
    omega
  | cons c rest ih =>
    rintro d i hd ⟨n, hn, h⟩
    obtain _ | n := n
    · simp [depth_nil] at h
      omega
    have hn1 : n ≤ rest.length := by simpa using hn
    rw [List.take_succ_cons, depth_cons] at h
    by_cases hc1 : c = '['
    · subst hc1
      simp only [if_true] at h
      obtain ⟨m, hm, hget, hz, hpos, hscan⟩ := ih (d + 1) (i + 1) (by omega) ⟨n, hn1, by omega⟩
      refine ⟨m + 1, by simpa using hm, by simpa using hget, ?_, ?_, ?_⟩
      · rw [List.take_succ_cons, depth_cons]
        simp only [if_true]
        omega
      · intro k hk
        obtain _ | k := k
        · simp [depth_nil]
          omega
        · rw [List.take_succ_cons, depth_cons]
          simp only [if_true]
          have := hpos k (by omega)
          omega
      · simp only [scanForward, hd, if_true]
        rw [hscan]
        congr 1
        push_cast
        ring
    · by_cases hc2 : c = ']'
      · subst hc2
        simp only [hc1, if_false, if_true] at h
        by_cases hd1 : d = 1
        · subst hd1
          refine ⟨0, by simp, by simp, by simp [depth_nil], ?_, ?_⟩
          · intro k hk
            have : k = 0 := by omega
            subst this
            simp [depth_nil]
          · simp only [scanForward, hc1, if_false, if_true]
            rw [scanForward_done _ _ _ (by omega)]
            simp
        · obtain ⟨m, hm, hget, hz, hpos, hscan⟩ :=
            ih (d - 1) (i + 1) (by omega) ⟨n, hn1, by omega⟩
          refine ⟨m + 1, by simpa using hm, by simpa using hget, ?_, ?_, ?_⟩
          · rw [List.take_succ_cons, depth_cons]
            simp only [hc1, if_false, if_true]
            omega
          · intro k hk
            obtain _ | k := k
            · simp [depth_nil]
              omega
            · rw [List.take_succ_cons, depth_cons]
              simp only [hc1, if_false, if_true]
              have := hpos k (by omega)
              omega
          · simp only [scanForward, hd, hc1, if_false, if_true]
            rw [hscan]
            congr 1
            push_cast
            ring
      · simp only [hc1, hc2, if_false] at h
        obtain ⟨m, hm, hget, hz, hpos, hscan⟩ := ih d (i + 1) hd ⟨n, hn1, by omega⟩
        refine ⟨m + 1, by simpa using hm, by simpa using hget, ?_, ?_, ?_⟩
        · rw [List.take_succ_cons, depth_cons]
          simp only [hc1, hc2, if_false]
          omega
        · intro k hk
          obtain _ | k := k
          · simp [depth_nil]
            omega
          · rw [List.take_succ_cons, depth_cons]
            simp only [hc1, hc2, if_false]
            have := hpos k (by omega)
            omega
        · simp only [scanForward, hd, hc1, hc2, if_false, if_true]
          rw [hscan]
          congr 1
          push_cast
          ring

/-- The backward scan stops just below the first `[` that brings the depth to zero. -/
theorem scanBackward_spec (behind : List Char) :
    ∀ (d i : Int), 0 < d → (∃ n, n ≤ behind.length ∧ d - depth (behind.take n) ≤ 0) →
      ∃ m, m < behind.length ∧ behind[m]? = some '[' ∧ d - 1 - depth (behind.take m) = 0 ∧
        (∀ n, n ≤ m → 0 ≤ d - 1 - depth (behind.take n)) ∧
        scanBackward behind d i = some (i - m - 1) := by
  induction behind with
  | nil =>
    rintro d i hd ⟨n, hn, h⟩
    simp at hn
    subst hn
    simp [depth_nil] at h
    omega
  | cons c rest ih =>
    rintro d i hd ⟨n, hn, h⟩
    obtain _ | n := n
    · simp [depth_nil] at h
      omega
    have hn1 : n ≤ rest.length := by simpa using hn
    rw [List.take_succ_cons, depth_cons] at h
    by_cases hc1 : c = '['
    · subst hc1
      simp only [if_true] at h
      by_cases hd1 : d = 1
      · subst hd1
        refine ⟨0, by simp, by simp, by simp [depth_nil], ?_, ?_⟩
        · intro k hk
          have : k = 0 := by omega
          subst this
          simp [depth_nil]
        · simp only [scanBackward, if_true]
          rw [scanBackward_done _ _ _ (by omega)]
          simp
      · obtain ⟨m, hm, hget, hz, hpos, hscan⟩ :=
          ih (d - 1) (i - 1) (by omega) ⟨n, hn1, by omega⟩
        refine ⟨m + 1, by simpa using hm, by simpa using hget, ?_, ?_, ?_⟩
        · rw [List.take_succ_cons, depth_cons]
          simp only [if_true]
          omega
        · intro k hk
          obtain _ | k := k
          · simp [depth_nil]
            omega
          · rw [List.take_succ_cons, depth_cons]
            simp only [if_true]
            have := hpos k (by omega)
            omega
        · simp only [scanBackward, hd, if_true]
          rw [hscan]
          congr 1
          push_cast
          ring
    · by_cases hc2 : c = ']'
      · subst hc2
        simp only [hc1, if_false, if_true] at h
        obtain ⟨m, hm, hget, hz, hpos, hscan⟩ :=
          ih (d + 1) (i - 1) (by omega) ⟨n, hn1, by omega⟩
        refine ⟨m + 1, by simpa using hm, by simpa using hget, ?_, ?_, ?_⟩
        · rw [List.take_succ_cons, depth_cons]
          simp only [hc1, if_false, if_true]
          omega
        · intro k hk
          obtain _ | k := k
          · simp [depth_nil]
            omega
          · rw [List.take_succ_cons, depth_cons]
            simp only [hc1, if_false, if_true]
            have := hpos k (by omega)
            omega
        · simp only [scanBackward, hd, hc1, if_false, if_true]
          rw [hscan]
          congr 1
          push_cast
          ring
      · simp only [hc1, hc2, if_false] at h
        obtain ⟨m, hm, hget, hz, hpos, hscan⟩ := ih d (i - 1) hd ⟨n, hn1, by omega⟩
        refine ⟨m + 1, by simpa using hm, by simpa using hget, ?_, ?_, ?_⟩
        · rw [List.take_succ_cons, depth_cons]
          simp only [hc1, hc2, if_false]
          omega
        · intro k hk
          obtain _ | k := k
          · simp [depth_nil]
            omega
          · rw [List.take_succ_cons, depth_cons]
            simp only [hc1, hc2, if_false]
            have := hpos k (by omega)
            omega
        · simp only [scanBackward, hd, hc1, hc2, if_false, if_true]
          rw [hscan]
          congr 1
          push_cast
          ring

/-! ### Matching brackets -/

theorem split_at (s : List Char) (i : Nat) (c : Char) (h : s[i]? = some c) :
    s = s.take i ++ c :: s.drop (i + 1) ∧ i < s.length := by
  obtain ⟨hlt, hc⟩ := List.getElem?_eq_some_iff.mp h
  refine ⟨?_, hlt⟩
  rw [← hc, ← List.drop_eq_getElem_cons hlt, List.take_append_drop]

theorem depth_take_succ (s : List Char) (n : Nat) (c : Char) (h : s[n]? = some c) :
    depth (s.take (n + 1)) = depth (s.take n) + depth [c] := by
  rw [List.take_succ, h, depth_append]
  rfl

theorem depth_open : depth ['['] = 1 := by decide

theorem depth_close : depth [']'] = -1 := by decide

/-- A `[` has at most one matching `]`. -/
theorem matches_close_unique (s : List Char) (i m1 m2 : Nat) (h1 : Matches s i m1)
    (h2 : Matches s i m2) : m1 = m2 := by
  by_contra hne
  wlog hlt : m1 < m2 generalizing m1 m2
  · exact this m2 m1 h2 h1 (fun h => hne h.symm) (by omega)
  obtain ⟨hi1, -, hc1, hb1⟩ := h1
  obtain ⟨hi2, -, hc2, hb2⟩ := h2
  rw [balanced_iff_depth] at hb1 hb2
  have hlen2 : m2 < s.length := (List.getElem?_eq_some_iff.mp hc2).1
  have hp := hb2.1 (m1 - (i + 1) + 1) (by simp; omega)
  rw [List.take_take, min_eq_left (by omega)] at hp
  have hget : (s.drop (i + 1))[m1 - (i + 1)]? = some ']' := by
    rw [List.getElem?_drop]
    rw [show i + 1 + (m1 - (i + 1)) = m1 by omega]
    exact hc1
  rw [depth_take_succ _ _ _ hget, hb1.2, depth_close] at hp
  omega

/-- A `]` has at most one matching `[`. -/
theorem matches_open_unique (s : List Char) (k1 k2 m : Nat) (h1 : Matches s k1 m)
    (h2 : Matches s k2 m) : k1 = k2 := by
  by_contra hne
  wlog hlt : k1 < k2 generalizing k1 k2
  · exact this k2 k1 h2 h1 (fun h => hne h.symm) (by omega)
  obtain ⟨hi1, -, hc1, hb1⟩ := h1
  obtain ⟨hi2, ho2, hc2, hb2⟩ := h2
  rw [balanced_iff_depth] at hb1 hb2
  have hlen : m < s.length := (List.getElem?_eq_some_iff.mp hc2).1
  have hp := hb1.1 (k2 - (k1 + 1)) (by simp; omega)
  rw [List.take_take, min_eq_left (by omega)] at hp
  have htot := hb1.2
  rw [show m - (k1 + 1) = (k2 - (k1 + 1)) + (m - k2) by omega, List.take_add, depth_append,
    List.drop_drop, show k1 + 1 + (k2 - (k1 + 1)) = k2 by omega] at htot
  obtain ⟨hsplit, -⟩ := split_at s k2 _ ho2
  have hd : s.drop k2 = '[' :: s.drop (k2 + 1) := by
    have hk : k2 < s.length := by omega
    rw [List.drop_eq_getElem_cons hk]
    congr 1
    have := List.getElem?_eq_some_iff.mp ho2
    exact this.2
  rw [hd, show m - k2 = (m - (k2 + 1)) + 1 by omega, List.take_succ_cons, depth_cons] at htot
  simp only [if_true] at htot
  rw [hb2.2] at htot
  omega

/-! ### The loop instructions of the engine -/

theorem readScript_terminated (body : List Char) (i : Nat) (c : Char) (h : body[i]? = some c) :
    readScript (terminated body) (i : Int) = some c := by
  have hlt : i < body.length := (List.getElem?_eq_some_iff.mp h).1
  simp only [readScript, terminated, Int.toNat_ofNat, Int.ofNat_nonneg, if_true]
  rw [List.getElem?_append_left hlt]
  exact h

/-- In a balanced text every `[` has a matching `]`, and the forward scan started behind the `[`
stops just behind that `]`, also when the text is followed by other bytes. -/
theorem scanForward_balanced (body more : List Char) (hb : Balanced body) (i : Nat)
    (hi : body[i]? = some '[') (j : Int) :
    ∃ m, Matches body i m ∧ scanForward (body.drop (i + 1) ++ more) 1 j = some (j + (m - i)) := by
  obtain ⟨hsplit, hlt⟩ := split_at body i _ hi
  rw [balanced_iff_depth] at hb
  have hpre := hb.1 i (by omega)
  have htot := hb.2
  rw [hsplit, depth_append, depth_cons] at htot
  simp only [if_true] at htot
  obtain ⟨m, hm, hget, hz, hpos, hscan⟩ :=
    scanForward_spec (body.drop (i + 1) ++ more) 1 j (by omega)
      ⟨(body.drop (i + 1)).length, by simp, by
        rw [List.take_left]
        omega⟩
  have hm1 : m < (body.drop (i + 1)).length := by
    by_contra hge
    have := hpos (body.drop (i + 1)).length (by omega)
    rw [List.take_left] at this
    omega
  have htake : ∀ n, n ≤ m → (body.drop (i + 1) ++ more).take n = (body.drop (i + 1)).take n :=
    fun n hn => List.take_append_of_le_length (by omega)
  rw [List.getElem?_append_left hm1, List.getElem?_drop] at hget
  refine ⟨i + 1 + m, ⟨by omega, hi, hget, ?_⟩, ?_⟩
  · rw [balanced_iff_depth, show i + 1 + m - (i + 1) = m by omega]
    refine ⟨fun n hn => ?_, ?_⟩
    · have hn1 : n ≤ m := by
        have := List.length_take_le m (body.drop (i + 1))
        omega
      rw [List.take_take, min_eq_left hn1, ← htake n hn1]
      have := hpos n hn1
      omega
    · rw [← htake m le_rfl]
      omega
  · rw [hscan]
    congr 1
    push_cast
    ring

/-- In a balanced text every `]` has a matching `[`, and the backward scan started below the `]`
stops just below that `[`. -/
theorem scanBackward_balanced (body : List Char) (hb : Balanced body) (i : Nat)
    (hi : body[i]? = some ']') (j : Int) :
    ∃ k, Matches body k i ∧ scanBackward (body.take i).reverse 1 j = some (j - (i - k)) := by
  obtain ⟨hsplit, hlt⟩ := split_at body i _ hi
  rw [balanced_iff_depth] at hb
  have hpre := hb.1 (i + 1) (by omega)
  rw [depth_take_succ _ _ _ hi, depth_close] at hpre
  have hlen : (body.take i).reverse.length = i := by simp; omega
  obtain ⟨m, hm, hget, hz, hpos, hscan⟩ :=
    scanBackward_spec (body.take i).reverse 1 j (by omega)
      ⟨i, by omega, by
        rw [List.take_of_length_le (by omega), depth_reverse]
        omega⟩
  rw [hlen] at hm
  have hrev : ∀ n, n ≤ i → depth ((body.take i).reverse.take n) =
      depth (body.take i) - depth (body.take (i - n)) := by
    intro n hn
    have hli : (body.take i).length = i := by simp; omega
    have h1 : (body.take i).reverse.take n = ((body.take i).drop (i - n)).reverse := by
      rw [List.take_reverse, hli]
    have h2 := List.take_append_drop (i - n) (body.take i)
    have h3 : depth (body.take i) =
        depth ((body.take i).take (i - n)) + depth ((body.take i).drop (i - n)) := by
      rw [← depth_append, h2]
    rw [List.take_take, min_eq_left (by omega)] at h3
    rw [h1, depth_reverse]
    omega
  have hk : body[i - 1 - m]? = some '[' := by
    rw [List.getElem?_reverse (by simp; omega)] at hget
    rw [List.getElem?_take] at hget
    simp at hget
    have : min i body.length - 1 - m = i - 1 - m := by omega
    rw [this] at hget
    exact hget.2
  refine ⟨i - 1 - m, ⟨by omega, hk, hi, ?_⟩, ?_⟩
  · rw [balanced_iff_depth]
    have hseg : ∀ n, n ≤ m →
        depth (((body.drop (i - 1 - m + 1)).take (i - (i - 1 - m + 1))).take n) =
          depth (body.take (i - m + n)) - depth (body.take (i - m)) := by
      intro n hn
      rw [List.take_take, min_eq_left (by omega)]
      have h1 := List.take_add body (i - m) n
      rw [show i - 1 - m + 1 = i - m by omega]
      have : depth (body.take (i - m + n)) =
          depth (body.take (i - m)) + depth ((body.drop (i - m)).take n) := by
        rw [h1, depth_append]
      omega
    have hzz := hrev m (by omega)
    refine ⟨fun n hn => ?_, ?_⟩
    · have hn1 : n ≤ m := by
        have := List.length_take_le (i - (i - 1 - m + 1)) (body.drop (i - 1 - m + 1))
        omega
      rw [hseg n hn1]
      have h5 := hpos (m - n) (by omega)
      rw [hrev (m - n) (by omega)] at h5
      rw [show i - (m - n) = i - m + n by omega] at h5
      omega
    · have := hseg m le_rfl
      rw [List.take_take, min_eq_left (by omega)] at this
      rw [show i - (i - 1 - m + 1) = m by omega, this, show i - m + m = i by omega]
      omega
  · rw [hscan]
    congr 1
    push_cast [show i - 1 - m ≤ i by omega, show m ≤ i - 1 by omega, show 1 ≤ i by omega]
    have : ((i - 1 - m : Nat) : Int) = (i : Int) - 1 - m := by omega
    omega

theorem drop_terminated (body : List Char) (i : Nat) (h : i < body.length) :
    (terminated body).drop ((i : Int) + 1).toNat = body.drop (i + 1) ++ [NUL] := by
  have : ((i : Int) + 1).toNat = i + 1 := by omega
  rw [this, terminated, List.drop_append_of_le_length (by omega)]

theorem take_terminated (body : List Char) (i : Nat) (h : i < body.length) :
    (terminated body).take (i : Int).toNat = body.take i := by
  rw [Int.toNat_ofNat, terminated, List.take_append_of_le_length (by omega)]

/-- C1: in a balanced script, one engine step at a `[` whose current cell is zero puts the
instruction pointer just behind the `]` that matches this `[`, and leaves the tape, the cursor,
the input and the output as they were. -/
theorem C1_open_on_zero_skips_loop (body : List Char) (hb : Balanced body) (i : Nat)
    (hi : body[i]? = some '[') (style : PrintStyle) (s : State) (hs : s.i = i)
    (hz : readCell s.tape s.pos = some 0) :
    ∃ m, Matches body i m ∧ (∀ m', Matches body i m' → m' = m) ∧
      step style (terminated body) s = .next { s with i := (m : Int) + 1 } := by
  obtain ⟨m, hm, hscan⟩ := scanForward_balanced body [NUL] hb i hi ((i : Int) + 1)
  refine ⟨m, hm, fun m' h' => matches_close_unique body i m' m h' hm, ?_⟩
  have hread := readScript_terminated body i _ hi
  have hlt : i < body.length := (List.getElem?_eq_some_iff.mp hi).1
  unfold step
  rw [hs, hread, hz, drop_terminated body i hlt, hscan]
  simp
  omega

/-- C1 at the outer `[` of `[[-]+]`, whose matching `]` is at index 5. -/
theorem C1_open_on_zero_skips_loop_witness :
    Balanced ['[', '[', '-', ']', '+', ']'] ∧ ∃ m, Matches ['[', '[', '-', ']', '+', ']'] 0 m ∧
      (∀ m', Matches ['[', '[', '-', ']', '+', ']'] 0 m' → m' = m) ∧
      step .Char (terminated ['[', '[', '-', ']', '+', ']'])
          { i := 0, tape := { prev := [], data := List.replicate 64 0, next := [] }, pos := 0,
            heap := 0, stdin := [], stdout := [] } =
        .next { i := (m : Int) + 1, tape := { prev := [], data := List.replicate 64 0, next := [] },
                pos := 0, heap := 0, stdin := [], stdout := [] } :=
  ⟨by decide, C1_open_on_zero_skips_loop ['[', '[', '-', ']', '+', ']'] (by decide) 0 (by decide)
    .Char { i := 0, tape := { prev := [], data := List.replicate 64 0, next := [] }, pos := 0,
            heap := 0, stdin := [], stdout := [] } rfl (by decide)⟩

/-- C2: in a balanced script, one engine step at a `]` whose current cell is not zero puts the
instruction pointer just behind the `[` that matches this `]` (also when that `[` is at index 0),
and leaves the tape, the cursor, the input and the output as they were. -/
theorem C2_close_on_nonzero_reenters_loop (body : List Char) (hb : Balanced body) (i : Nat)
    (hi : body[i]? = some ']') (style : PrintStyle) (s : State) (hs : s.i = i) (v : Int)
    (hv : readCell s.tape s.pos = some v) (hnz : v ≠ 0) :
    ∃ k, Matches body k i ∧ (∀ k', Matches body k' i → k' = k) ∧
      step style (terminated body) s = .next { s with i := (k : Int) + 1 } := by
  obtain ⟨k, hk, hscan⟩ := scanBackward_balanced body hb i hi ((i : Int) - 1)
  refine ⟨k, hk, fun k' h' => matches_open_unique body k' k i h' hk, ?_⟩
  have hread := readScript_terminated body i _ hi
  have hlt : i < body.length := (List.getElem?_eq_some_iff.mp hi).1
  unfold step
  rw [hs, hread, hv, take_terminated body i hlt, hscan]
  simp [hnz]
  omega

/-- C2 at the `]` of `[-]`, whose matching `[` is at index 0, with the current cell at `-3`. -/
theorem C2_close_on_nonzero_reenters_loop_witness :
    Balanced ['[', '-', ']'] ∧ ∃ k, Matches ['[', '-', ']'] k 2 ∧ (∀ k', Matches ['[', '-', ']'] k' 2 → k' = k) ∧
      step .Char (terminated ['[', '-', ']'])
          { i := 2, tape := { prev := [], data := -3 :: List.replicate 63 0, next := [] }, pos := 0,
            heap := 0, stdin := [], stdout := [] } =
        .next { i := (k : Int) + 1, tape := { prev := [], data := -3 :: List.replicate 63 0, next := [] },
                pos := 0, heap := 0, stdin := [], stdout := [] } :=
  ⟨by decide, C2_close_on_nonzero_reenters_loop ['[', '-', ']'] (by decide) 2 (by decide) .Char
    { i := 2, tape := { prev := [], data := -3 :: List.replicate 63 0, next := [] }, pos := 0,
      heap := 0, stdin := [], stdout := [] } rfl (-3) (by decide) (by decide)⟩

/-! ### The counting loop of the loader -/

theorem isInstruction_iff (c : Char) : isInstruction c = decide (c ∈ SYMBOLS) := by
  simp [isInstruction, SYMBOLS, Bool.or_assoc]

theorem depth_single (c : Char) :
    depth [c] = if c = '[' then 1 else if c = ']' then -1 else 0 := by
  rw [depth_cons, depth_nil, add_zero]

/-- One pass of the counting loop, when the depth was not negative before: either the byte is a
`]` at depth zero and the pass reports the current line, or it updates the counters. -/
theorem countChar_cases (k : Counters) (c : Char) (h : 0 ≤ k.open_loops) :
    (c = ']' ∧ k.open_loops = 0 ∧ countChar k c = .error k.line) ∨
    (0 ≤ k.open_loops + depth [c] ∧
      countChar k c = .ok
        { inst_count := k.inst_count + (if isInstruction c then 1 else 0)
          line := k.line + (if c = '\n' then 1 else 0)
          line_last_open := if c = '[' then k.line else k.line_last_open
          line_last_close := if c = ']' then k.line else k.line_last_close
          open_loops := k.open_loops + depth [c] }) := by
  rw [depth_single]
  by_cases h1 : c = '['
  · subst h1
    right
    refine ⟨by simp; omega, ?_⟩
    have : ¬ (k.open_loops + 1 < 0) := by omega
    simp [countChar, isInstruction, this]
  · by_cases h2 : c = ']'
    · subst h2
      by_cases h0 : k.open_loops = 0
      · left
        simp [countChar, h0]
      · right
        have : ¬ (k.open_loops - 1 < 0) := by omega
        refine ⟨by simp; omega, ?_⟩
        simp [countChar, isInstruction, this]
        omega
    · right
      refine ⟨by simp [h1, h2]; omega, ?_⟩
      by_cases h3 : c = '>' ∨ c = '<' ∨ c = '+' ∨ c = '-' ∨ c = '.' ∨ c = ','
      · have hi : isInstruction c = true := by
          rcases h3 with h | h | h | h | h | h <;> subst h <;> decide
        have hn : c ≠ '\n' := by
          rcases h3 with h | h | h | h | h | h <;> subst h <;> decide
        simp [countChar, h1, h2, h3, hi, hn]
      · have hi : isInstruction c = false := by
          simp only [not_or] at h3
          simp [isInstruction, h1, h2, h3]
        by_cases h4 : c = '\n'
        · subst h4
          simp [countChar, isInstruction]
        · simp [countChar, h1, h2, h3, hi, h4]

theorem count_newline_cons (c : Char) (s : List Char) :
    ((c :: s).count '\n' : Int) = (if c = '\n' then 1 else 0) + (s.count '\n' : Int) := by
  by_cases h : c = '\n'
  · subst h
    simp
    ring
  · have h1 : ¬ ('\n' = c) := fun e => h e.symm
    simp [List.count_cons, h, h1]

theorem filter_length_cons (c : Char) (s : List Char) :
    ((c :: s).filter isInstruction).length =
      (if isInstruction c then 1 else 0) + (s.filter isInstruction).length := by
  by_cases h : isInstruction c = true
  · simp [List.filter_cons, h]
    ring
  · simp [List.filter_cons, h]

theorem lastOpen_zero_cons (c : Char) (rest : List Char) (h : LastOpen (c :: rest) 0) :
    c = '[' ∧ '[' ∉ rest := by
  obtain ⟨h0, hall⟩ := h
  refine ⟨by simpa using h0, fun hmem => ?_⟩
  obtain ⟨q, hq⟩ := List.mem_iff_getElem?.mp hmem
  have hlt : q < rest.length := (List.getElem?_eq_some_iff.mp hq).1
  exact hall (q + 1) (by simp; omega) (by omega) (by simpa using hq)

theorem lastOpen_succ_cons (c : Char) (rest : List Char) (p : Nat)
    (h : LastOpen (c :: rest) (p + 1)) : LastOpen rest p := by
  obtain ⟨h0, hall⟩ := h
  refine ⟨by simpa using h0, fun q hq hpq => ?_⟩
  have := hall (q + 1) (by simp; omega) (by omega)
  simpa using this

/-- The counting loop on a text whose depth never goes negative: it runs to its end, and the
counters are the number of instructions, the number of lines, the depth, and the line of the
last `[`. -/
theorem countLoop_ok (buf : List Char) :
    ∀ k : Counters, (∀ n, n ≤ buf.length → 0 ≤ k.open_loops + depth (buf.take n)) →
      ∃ k1, countLoop buf k = .ok k1 ∧
        k1.inst_count = k.inst_count + (buf.filter isInstruction).length ∧
        k1.line = k.line + (buf.count '\n' : Int) ∧
        k1.open_loops = k.open_loops + depth buf ∧
        (∀ p, LastOpen buf p → k1.line_last_open = k.line + ((buf.take p).count '\n' : Int)) ∧
        ('[' ∉ buf → k1.line_last_open = k.line_last_open) := by
  induction buf with
  | nil =>
    intro k _
    refine ⟨k, rfl, by simp, by simp, by simp [depth_nil], ?_, fun _ => rfl⟩
    rintro p ⟨hp, -⟩
    simp at hp
  | cons c rest ih =>
    intro k hk
    have h0 : 0 ≤ k.open_loops := by
      have := hk 0 (by omega)
      simpa [depth_nil] using this
    have h1 := hk 1 (by simp)
    rw [show (c :: rest).take 1 = [c] by simp] at h1
    rcases countChar_cases k c h0 with ⟨hc, hz, -⟩ | ⟨-, hstep⟩
    · subst hc
      rw [depth_close] at h1
      omega
    · generalize hk2 : ({ inst_count := k.inst_count + (if isInstruction c then 1 else 0)
                          line := k.line + (if c = '\n' then 1 else 0)
                          line_last_open := if c = '[' then k.line else k.line_last_open
                          line_last_close := if c = ']' then k.line else k.line_last_close
                          open_loops := k.open_loops + depth [c] } : Counters) = k2 at hstep
      have e1 : k2.inst_count = k.inst_count + (if isInstruction c then 1 else 0) := by
        rw [← hk2]
      have e2 : k2.line = k.line + (if c = '\n' then 1 else 0) := by rw [← hk2]
      have e3 : k2.line_last_open = if c = '[' then k.line else k.line_last_open := by
        rw [← hk2]
      have e4 : k2.open_loops = k.open_loops + depth [c] := by rw [← hk2]
      obtain ⟨k1, hrun, hcount, hline, hopen, hlast, hnone⟩ := ih k2 (by
        intro n hn
        have := hk (n + 1) (by simp; omega)
        rw [List.take_succ_cons, depth_cons] at this
        rw [e4, depth_single]
        omega)
      refine ⟨k1, by simp only [countLoop, hstep, hrun], ?_, ?_, ?_, ?_, ?_⟩
      · rw [hcount, filter_length_cons, e1]
        omega
      · rw [hline, count_newline_cons, e2]
        omega
      · rw [hopen, depth_cons, e4, depth_single]
        omega
      · intro p hp
        obtain _ | p := p
        · obtain ⟨hc, hno⟩ := lastOpen_zero_cons c rest hp
          rw [hnone hno, e3]
          simp [hc]
        · rw [hlast p (lastOpen_succ_cons c rest p hp), List.take_succ_cons, count_newline_cons,
            e2]
          omega
      · intro hno
        have hc : c ≠ '[' := fun e => hno (by simp [e])
        have hr : '[' ∉ rest := fun e => hno (by simp [e])
        rw [hnone hr, e3]
        simp [hc]

/-- The counting loop on a text whose depth goes negative: it stops at the first `]` that makes
the depth negative and reports the line of that `]`. -/
theorem countLoop_error (buf : List Char) :
    ∀ k : Counters, 0 ≤ k.open_loops →
      (∃ n, n ≤ buf.length ∧ k.open_loops + depth (buf.take n) < 0) →
      ∃ p, buf[p]? = some ']' ∧ k.open_loops + depth (buf.take (p + 1)) < 0 ∧
        (∀ q, q ≤ p → 0 ≤ k.open_loops + depth (buf.take q)) ∧
        countLoop buf k = .error (k.line + ((buf.take p).count '\n' : Int)) := by
  induction buf with
  | nil =>
    rintro k h0 ⟨n, hn, h⟩
    simp at hn
    subst hn
    simp [depth_nil] at h
    omega
  | cons c rest ih =>
    rintro k h0 ⟨n, hn, h⟩
    obtain _ | n := n
    · simp [depth_nil] at h
      omega
    rw [List.take_succ_cons, depth_cons] at h
    rcases countChar_cases k c h0 with ⟨hc, hz, herr⟩ | ⟨hnonneg, hstep⟩
    · subst hc
      refine ⟨0, by simp, ?_, ?_, ?_⟩
      · simp [depth_close]
        omega
      · intro q hq
        have : q = 0 := by omega
        subst this
        simpa [depth_nil] using h0
      · simp [countLoop, herr]
    · generalize hk2 : ({ inst_count := k.inst_count + (if isInstruction c then 1 else 0)
                          line := k.line + (if c = '\n' then 1 else 0)
                          line_last_open := if c = '[' then k.line else k.line_last_open
                          line_last_close := if c = ']' then k.line else k.line_last_close
                          open_loops := k.open_loops + depth [c] } : Counters) = k2 at hstep
      have e2 : k2.line = k.line + (if c = '\n' then 1 else 0) := by rw [← hk2]
      have e4 : k2.open_loops = k.open_loops + depth [c] := by rw [← hk2]
      rw [depth_single] at hnonneg e4
      obtain ⟨p, hget, hneg, hpos, hrun⟩ := ih k2 (by omega) ⟨n, by simpa using hn, by omega⟩
      refine ⟨p + 1, by simpa using hget, ?_, ?_, ?_⟩
      · rw [List.take_succ_cons, depth_cons]
        omega
      · intro q hq
        obtain _ | q := q
        · simpa [depth_nil] using h0
        · rw [List.take_succ_cons, depth_cons]
          have := hpos q (by omega)
          omega
      · simp only [countLoop, hstep, hrun]
        rw [List.take_succ_cons, count_newline_cons, e2]
        congr 1
        omega

/-! ### The copying loop and the whole loader -/

/-- The copying loop writes the instructions of the buffer, in order, over the array from index
`j` on. -/
theorem copyLoop_spec (buf : List Char) :
    ∀ a b : List Char, (buf.filter isInstruction).length ≤ b.length →
      copyLoop buf (a ++ b) a.length =
        (a ++ buf.filter isInstruction ++ b.drop (buf.filter isInstruction).length,
          a.length + (buf.filter isInstruction).length) := by
  induction buf with
  | nil =>
    intro a b _
    simp [copyLoop]
  | cons c rest ih =>
    intro a b hlen
    by_cases hc : isInstruction c = true
    · simp only [List.filter_cons, hc, if_true, List.length_cons] at hlen ⊢
      obtain _ | ⟨x, b⟩ := b
      · simp at hlen
      have hset : (a ++ x :: b).set a.length c = (a ++ [c]) ++ b := by
        rw [List.set_append_right _ _ le_rfl]
        simp
      have := ih (a ++ [c]) b (by simpa using hlen)
      simp only [copyLoop, hc, if_true, hset]
      rw [show a.length + 1 = (a ++ [c]).length by simp, this]
      simp
      omega
    · simp only [List.filter_cons, hc] at hlen ⊢
      simp only [copyLoop, hc]
      exact ih a b hlen

theorem neverNegative_iff_depth (src : List Char) :
    NeverNegative src ↔ ∀ n, n ≤ src.length → 0 ≤ depth (src.take n) := by
  unfold NeverNegative depth
  constructor
  · intro h n hn
    have := h n hn
    omega
  · intro h n hn
    have := h n hn
    omega

theorem balanced_iff (src : List Char) : Balanced src ↔ NeverNegative src ∧ depth src = 0 := by
  rw [balanced_iff_depth, neverNegative_iff_depth]

/-- The loader on a balanced text, when `malloc` returns an array: the instructions of the text
in their order, then the end sentinel. -/
theorem readFile_balanced (junk : Nat → Char) (src : List Char) (hb : Balanced src) :
    readFile (some junk) src = .ok (terminated (src.filter isInstruction)) := by
  rw [balanced_iff_depth] at hb
  obtain ⟨k, hrun, hcount, -, hopen, -, -⟩ := countLoop_ok src Counters.init (by
    intro n hn
    have := hb.1 n hn
    simpa [Counters.init] using this)
  have hopen0 : k.open_loops = 0 := by
    rw [hopen, hb.2]
    rfl
  have hcount0 : k.inst_count = (src.filter isInstruction).length := by
    rw [hcount]
    simp [Counters.init]
  have hcopy := copyLoop_spec src [] ((List.range (k.inst_count + 1)).map junk) (by
    simp
    omega)
  simp only [List.nil_append, List.length_nil] at hcopy
  simp only [readFile, hrun, hopen0, malloc, Option.map_some', hcopy, terminated]
  rw [hcount0, List.range_succ, List.map_append,
    List.drop_left' (by simp), List.set_append_right _ _ le_rfl]
  simp

/-- The loader on a text with a prefix that has more `]` than `[`. -/
theorem readFile_unmatched_close (heap : Option (Nat → Char)) (src : List Char)
    (h : ¬ NeverNegative src) :
    ∃ p, src[p]? = some ']' ∧ depth (src.take (p + 1)) < 0 ∧
      (∀ q, q ≤ p → 0 ≤ depth (src.take q)) ∧
      readFile heap src = .error (.brackets (lineOf src p)) := by
  rw [neverNegative_iff_depth] at h
  push_neg at h
  obtain ⟨n, hn, hneg⟩ := h
  obtain ⟨p, hget, hp, hq, hrun⟩ := countLoop_error src Counters.init (by decide)
    ⟨n, hn, by simpa [Counters.init] using hneg⟩
  refine ⟨p, hget, by simpa [Counters.init] using hp, ?_, ?_⟩
  · intro q hq1
    simpa [Counters.init] using hq q hq1
  · simp only [readFile, hrun, lineOf]
    rfl

theorem lastOpen_exists (src : List Char) (h : '[' ∈ src) : ∃ p, LastOpen src p := by
  induction src with
  | nil => simp at h
  | cons c rest ih =>
    by_cases hr : '[' ∈ rest
    · obtain ⟨p, hp, hall⟩ := ih hr
      refine ⟨p + 1, by simpa using hp, fun q hq hpq => ?_⟩
      obtain _ | q := q
      · omega
      · have := hall q (by simpa using hq) (by omega)
        simpa using this
    · have hc : c = '[' := by
        rcases List.mem_cons.mp h with e | e
        · exact e.symm
        · exact absurd e hr
      refine ⟨0, by simp [hc], fun q hq hpq => ?_⟩
      obtain _ | q := q
      · omega
      · intro e
        exact hr (List.mem_iff_getElem?.mpr ⟨q, by simpa using e⟩)

/-- The loader on a text whose depth is never negative and positive at the end: it reports the
line of the last `[` of the text. -/
theorem readFile_unmatched_open (heap : Option (Nat → Char)) (src : List Char)
    (h : NeverNegative src) (hpos : 0 < depth src) :
    ∃ p, LastOpen src p ∧ readFile heap src = .error (.brackets (lineOf src p)) := by
  rw [neverNegative_iff_depth] at h
  obtain ⟨k, hrun, -, -, hopen, hlast, -⟩ := countLoop_ok src Counters.init (by
    intro n hn
    have := h n hn
    simpa [Counters.init] using this)
  have hmem : '[' ∈ src := by
    by_contra hno
    have : src.count '[' = 0 := List.count_eq_zero.mpr hno
    unfold depth at hpos
    omega
  obtain ⟨p, hp⟩ := lastOpen_exists src hmem
  have hopen1 : k.open_loops = depth src := by
    rw [hopen]
    simp [Counters.init]
  have h1 : k.open_loops ≠ 0 := by omega
  have h2 : k.open_loops > 0 := by omega
  refine ⟨p, hp, ?_⟩
  simp only [readFile, hrun, lineOf]
  rw [if_pos h1, if_pos h2, hlast p hp]
  rfl

theorem readFile_balanced_null (src : List Char) (hb : Balanced src) :
    readFile none src = .error .memory := by
  rw [balanced_iff_depth] at hb
  obtain ⟨k, hrun, -, -, hopen, -, -⟩ := countLoop_ok src Counters.init (by
    intro n hn
    have := hb.1 n hn
    simpa [Counters.init] using this)
  have hopen0 : k.open_loops = 0 := by
    rw [hopen, hb.2]
    rfl
  simp [readFile, hrun, hopen0, malloc]

/-- The loader succeeds only on a balanced text, and only when `malloc` returns an array. -/
theorem readFile_ok_balanced (heap : Option (Nat → Char)) (src script : List Char)
    (h : readFile heap src = .ok script) : Balanced src ∧ ∃ junk, heap = some junk := by
  have hnn : NeverNegative src := by
    by_contra hneg
    obtain ⟨p, -, -, -, herr⟩ := readFile_unmatched_close heap src hneg
    rw [herr] at h
    cases h
  have hd : depth src = 0 := by
    by_contra hne
    have h0 := (neverNegative_iff_depth src).mp hnn src.length le_rfl
    rw [List.take_length] at h0
    obtain ⟨p, -, herr⟩ := readFile_unmatched_open heap src hnn (by omega)
    rw [herr] at h
    cases h
  have hb : Balanced src := (balanced_iff src).mpr ⟨hnn, hd⟩
  refine ⟨hb, ?_⟩
  cases heap with
  | none =>
    rw [readFile_balanced_null src hb] at h
    cases h
  | some junk => exact ⟨junk, rfl⟩

theorem stripped_eq_filter (src : List Char) : stripped src = src.filter isInstruction := by
  unfold stripped
  congr 1
  funext c
  rw [isInstruction_iff]

theorem take_filter_exists (p : Char → Bool) (l : List Char) :
    ∀ n, ∃ m, m ≤ l.length ∧ (l.filter p).take n = (l.take m).filter p := by
  induction l with
  | nil =>
    intro n
    exact ⟨0, le_rfl, by simp⟩
  | cons c rest ih =>
    intro n
    by_cases hc : p c = true
    · obtain _ | n := n
      · exact ⟨0, by simp, by simp⟩
      · obtain ⟨m, hm, he⟩ := ih n
        exact ⟨m + 1, by simpa using hm, by simp [List.filter_cons, hc, he]⟩
    · obtain ⟨m, hm, he⟩ := ih n
      exact ⟨m + 1, by simpa using hm, by simp [List.filter_cons, hc, he]⟩

theorem depth_filter (l : List Char) : depth (l.filter isInstruction) = depth l := by
  unfold depth
  rw [List.count_filter (by decide), List.count_filter (by decide)]

/-- Removing the comments keeps a text balanced. -/
theorem balanced_stripped (src : List Char) (hb : Balanced src) : Balanced (stripped src) := by
  rw [stripped_eq_filter]
  rw [balanced_iff_depth] at hb ⊢
  refine ⟨fun n _ => ?_, ?_⟩
  · obtain ⟨m, hm, he⟩ := take_filter_exists isInstruction src n
    rw [he, depth_filter]
    exact hb.1 m hm
  · rw [depth_filter]
    exact hb.2

theorem nul_not_mem_stripped (src : List Char) : NUL ∉ stripped src := by
  intro h
  have := (List.mem_filter.mp h).2
  revert this
  decide

/-! ### The claims about the loader -/

/-- C3: on a source text whose brackets are balanced and properly nested the loader succeeds
(`malloc` having returned an array), and the instruction stream in front of the end sentinel has
as many characters as the source has characters among the eight symbols. -/
theorem C3_balanced_source_loads (junk : Nat → Char) (src : List Char) (hb : Balanced src) :
    ∃ body, readFile (some junk) src = .ok (terminated body) ∧ NUL ∉ body ∧
      body.length = src.countP (fun c => decide (c ∈ SYMBOLS)) := by
  refine ⟨stripped src, ?_, nul_not_mem_stripped src, ?_⟩
  · rw [stripped_eq_filter]
    exact readFile_balanced junk src hb
  · rw [stripped, List.countP_eq_length_filter]

/-- C3 on the text `a[b` newline `-]c`, which has three symbols. -/
theorem C3_balanced_source_loads_witness :
    Balanced ['a', '[', 'b', '\n', '-', ']', 'c'] ∧
      ∃ body, readFile (some fun _ => 'x') ['a', '[', 'b', '\n', '-', ']', 'c'] =
          .ok (terminated body) ∧ NUL ∉ body ∧ body.length = 3 :=
  ⟨by decide, C3_balanced_source_loads (fun _ => 'x') ['a', '[', 'b', '\n', '-', ']', 'c']
    (by decide)⟩

/-- C4: whenever the loader succeeds, the array it returns is the source text with every
character that is not one of the eight symbols removed, the symbols in their order, followed by
the end sentinel. -/
theorem C4_stream_is_filtered_source (heap : Option (Nat → Char)) (src script : List Char)
    (h : readFile heap src = .ok script) :
    script = src.filter (fun c => decide (c ∈ SYMBOLS)) ++ [NUL] := by
  obtain ⟨hb, junk, hj⟩ := readFile_ok_balanced heap src script h
  subst hj
  rw [readFile_balanced junk src hb] at h
  injection h with h
  rw [← h, ← stripped_eq_filter]
  rfl

/-- C4 on the text `a[b` newline `-]c`. -/
theorem C4_stream_is_filtered_source_witness :
    readFile (some fun _ => 'x') ['a', '[', 'b', '\n', '-', ']', 'c'] = .ok ['[', '-', ']', NUL] ∧
      ['[', '-', ']', NUL] =
        ['a', '[', 'b', '\n', '-', ']', 'c'].filter (fun c => decide (c ∈ SYMBOLS)) ++ [NUL] :=
  ⟨rfl, C4_stream_is_filtered_source (some fun _ => 'x') ['a', '[', 'b', '\n', '-', ']', 'c']
    ['[', '-', ']', NUL] rfl⟩

/-- C5: on a source text with an unmatched `]`, that is with a prefix that has more `]` than `[`,
the loader fails, whatever `malloc` would do, and reports the line of the first `]` at which the
depth goes negative: one more than the number of newline characters in front of it. -/
theorem C5_unmatched_close_reports_its_line (heap : Option (Nat → Char)) (src : List Char)
    (h : ∃ n, n ≤ src.length ∧ (src.take n).count '[' < (src.take n).count ']') :
    ∃ p, src[p]? = some ']' ∧
      (src.take (p + 1)).count '[' < (src.take (p + 1)).count ']' ∧
      (∀ q, q ≤ p → (src.take q).count ']' ≤ (src.take q).count '[') ∧
      readFile heap src = .error (.brackets (1 + ((src.take p).count '\n' : Int))) := by
  have hneg : ¬ NeverNegative src := by
    obtain ⟨n, hn, hlt⟩ := h
    intro hnn
    have := hnn n hn
    omega
  obtain ⟨p, hget, hp, hq, herr⟩ := readFile_unmatched_close heap src hneg
  refine ⟨p, hget, ?_, fun q hq1 => ?_, herr⟩
  · unfold depth at hp
    omega
  · have := hq q hq1
    unfold depth at this
    omega

/-- C5 on the text `][`, which fails with line 1. -/
theorem C5_unmatched_close_reports_its_line_witness :
    readFile (some fun _ => 'x') [']', '['] = .error (.brackets 1) ∧
      ∃ p, [']', '['][p]? = some ']' ∧
        (([']', '['] : List Char).take (p + 1)).count '[' <
          (([']', '['] : List Char).take (p + 1)).count ']' ∧
        (∀ q, q ≤ p → (([']', '['] : List Char).take q).count ']' ≤
          (([']', '['] : List Char).take q).count '[') ∧
        readFile (some fun _ => 'x') [']', '['] =
          .error (.brackets (1 + ((([']', '['] : List Char).take p).count '\n' : Int))) :=
  ⟨rfl, C5_unmatched_close_reports_its_line (some fun _ => 'x') [']', '[']
    ⟨1, by decide, by decide⟩⟩

/-- C6, as the code has it: on a source text with an unmatched `[`, that is with a depth that is
never negative and positive at the end, the loader fails, whatever `malloc` would do, and reports
the line of the last `[` of the text, be that `[` matched or not. -/
theorem C6_unmatched_open_reports_last_open (heap : Option (Nat → Char)) (src : List Char)
    (h1 : NeverNegative src) (h2 : src.count ']' < src.count '[') :
    ∃ p, LastOpen src p ∧ readFile heap src = .error (.brackets (lineOf src p)) := by
  apply readFile_unmatched_open heap src h1
  unfold depth
  omega

/-- C6 as amended, on the text `[` newline `[]`: the last `[` is at index 2, on line 2. -/
theorem C6_unmatched_open_reports_last_open_witness :
    NeverNegative ['[', '\n', '[', ']'] ∧
      ∃ p, LastOpen ['[', '\n', '[', ']'] p ∧
        readFile none ['[', '\n', '[', ']'] =
          .error (.brackets (lineOf ['[', '\n', '[', ']'] p)) :=
  ⟨by decide, C6_unmatched_open_reports_last_open none ['[', '\n', '[', ']'] (by decide)
    (by decide)⟩

/-- C6 as stated fails on the text `[` newline `[]`: its depth is never negative and is 1 at the
end, its only unmatched `[` is the one at index 0 on line 1, and the loader reports line 2. -/
theorem C6_last_unmatched_open_counterexample :
    NeverNegative ['[', '\n', '[', ']'] ∧ 0 < depth ['[', '\n', '[', ']'] ∧
      LastUnmatchedOpen ['[', '\n', '[', ']'] 0 ∧
      (∀ p, p < 4 → LastUnmatchedOpen ['[', '\n', '[', ']'] p → p = 0) ∧
      Matches ['[', '\n', '[', ']'] 2 3 ∧
      lineOf ['[', '\n', '[', ']'] 0 = 1 ∧
      readFile (some fun _ => 'x') ['[', '\n', '[', ']'] = .error (.brackets 2) ∧
      readFile none ['[', '\n', '[', ']'] = .error (.brackets 2) ∧
      readFile none ['[', '\n', '[', ']'] ≠
        .error (.brackets (lineOf ['[', '\n', '[', ']'] 0)) := by
  refine ⟨by decide, by decide, by decide, by decide, by decide, by decide, rfl, rfl, ?_⟩
  intro h
  have h2 : readFile none ['[', '\n', '[', ']'] = .error (.brackets 2) := rfl
  rw [h2] at h
  injection h with h
  injection h with h
  revert h
  decide

/-- C7: every array the loader returns is a balanced and properly nested instruction stream
followed by the end sentinel; and, `malloc` having returned an array, the loader succeeds if and
only if the brackets of the source are balanced and properly nested. -/
theorem C7_loader_succeeds_iff_balanced (heap : Option (Nat → Char)) (junk : Nat → Char)
    (src : List Char) :
    (∀ script, readFile heap src = .ok script →
      ∃ body, script = terminated body ∧ NUL ∉ body ∧
        (∀ n, n ≤ body.length → (body.take n).count ']' ≤ (body.take n).count '[') ∧
        body.count '[' = body.count ']') ∧
    ((∃ script, readFile (some junk) src = .ok script) ↔ Balanced src) := by
  refine ⟨fun script h => ?_, ?_, ?_⟩
  · obtain ⟨hb, j, hj⟩ := readFile_ok_balanced heap src script h
    subst hj
    rw [readFile_balanced j src hb, ← stripped_eq_filter] at h
    injection h with h
    have hbs := balanced_stripped src hb
    exact ⟨stripped src, h.symm, nul_not_mem_stripped src, hbs.1, hbs.2⟩
  · rintro ⟨script, h⟩
    exact (readFile_ok_balanced (some junk) src script h).1
  · intro hb
    exact ⟨_, readFile_balanced junk src hb⟩

/-! ### The tape -/

theorem readCell_writeCell (tape : Tape) (pos v w : Int) (h : readCell tape pos = some v) :
    readCell (writeCell tape pos w) pos = some w := by
  unfold readCell at h ⊢
  by_cases hp : 0 ≤ pos
  · simp only [hp, if_true] at h ⊢
    have hlt : pos.toNat < tape.data.length := (List.getElem?_eq_some_iff.mp h).1
    simp [writeCell, hlt]
  · simp [hp] at h

theorem readCell_writeCell_ne (tape : Tape) (pos j w : Int) (hp : 0 ≤ pos) (hne : j ≠ pos) :
    readCell (writeCell tape pos w) j = readCell tape j := by
  unfold readCell
  by_cases hj : 0 ≤ j
  · simp only [hj, if_true, writeCell]
    have : pos.toNat ≠ j.toNat := by omega
    rw [List.getElem?_set_ne this]
  · simp [hj]

theorem writeCell_writeCell (tape : Tape) (pos v w : Int) :
    writeCell (writeCell tape pos v) pos w = writeCell tape pos w := by
  simp [writeCell]

theorem toChar_range (v : Int) : -128 ≤ toChar v ∧ toChar v ≤ 127 := by
  unfold toChar
  omega

theorem toChar_mod (v : Int) : toChar v % 256 = v % 256 := by
  unfold toChar
  omega

/-- C9: cell arithmetic wraps as signed eight bit arithmetic. On a cell that holds `v`, the
instruction `+` stores the `char` with the byte pattern `(v + 1) mod 256`, which is `-128` when
`v` is `127` and `v + 1` otherwise, and `-` stores the one with the byte pattern
`(v - 1) mod 256`, which is `127` when `v` is `-128` and `v - 1` otherwise. Neither is an error:
the step goes on to the next instruction and writes nothing. -/
theorem C9_cell_arithmetic_wraps (style : PrintStyle) (script : List Char) (s : State) (v : Int)
    (hv : readCell s.tape s.pos = some v) (hlo : -128 ≤ v) (hhi : v ≤ 127) :
    (readScript script s.i = some '+' →
      ∃ w, step style script s = .next { s with tape := writeCell s.tape s.pos w, i := s.i + 1 } ∧
        readCell (writeCell s.tape s.pos w) s.pos = some w ∧
        w % 256 = (v + 1) % 256 ∧ -128 ≤ w ∧ w ≤ 127 ∧
        (v = 127 → w = -128) ∧ (v < 127 → w = v + 1)) ∧
    (readScript script s.i = some '-' →
      ∃ w, step style script s = .next { s with tape := writeCell s.tape s.pos w, i := s.i + 1 } ∧
        readCell (writeCell s.tape s.pos w) s.pos = some w ∧
        w % 256 = (v - 1) % 256 ∧ -128 ≤ w ∧ w ≤ 127 ∧
        (v = -128 → w = 127) ∧ (-128 < v → w = v - 1)) := by
  constructor
  · intro hc
    refine ⟨toChar (v + 1), ?_, readCell_writeCell _ _ _ _ hv, toChar_mod _, (toChar_range _).1,
      (toChar_range _).2, ?_, ?_⟩
    · simp [step, hc, hv]
    · intro h
      subst h
      decide
    · intro h
      unfold toChar
      omega
  · intro hc
    refine ⟨toChar (v - 1), ?_, readCell_writeCell _ _ _ _ hv, toChar_mod _, (toChar_range _).1,
      (toChar_range _).2, ?_, ?_⟩
    · simp [step, hc, hv]
    · intro h
      subst h
      decide
    · intro h
      unfold toChar
      omega

/-- C9 on a fresh block whose first cell holds 127, the largest value of a cell. -/
theorem C9_cell_arithmetic_wraps_witness :
    step .Char ['+', NUL]
        { i := 0, tape := { prev := [], data := 127 :: List.replicate 63 0, next := [] },
          pos := 0, heap := 0, stdin := [], stdout := [] } =
      .next { i := 1, tape := { prev := [], data := -128 :: List.replicate 63 0, next := [] },
              pos := 0, heap := 0, stdin := [], stdout := [] } ∧
    step .Char ['-', NUL]
        { i := 0, tape := { prev := [], data := -128 :: List.replicate 63 0, next := [] },
          pos := 0, heap := 0, stdin := [], stdout := [] } =
      .next { i := 1, tape := { prev := [], data := 127 :: List.replicate 63 0, next := [] },
              pos := 0, heap := 0, stdin := [], stdout := [] } ∧
    ∃ w, step .Char ['+', NUL]
          { i := 0, tape := { prev := [], data := 127 :: List.replicate 63 0, next := [] },
            pos := 0, heap := 0, stdin := [], stdout := [] } =
        .next { i := 0 + 1
                tape := writeCell
                  { prev := [], data := 127 :: List.replicate 63 0, next := [] } 0 w
                pos := 0, heap := 0, stdin := [], stdout := [] } ∧
      readCell (writeCell { prev := [], data := 127 :: List.replicate 63 0, next := [] } 0 w) 0 =
        some w ∧
      w % 256 = (127 + 1) % 256 ∧ -128 ≤ w ∧ w ≤ 127 ∧
      ((127 : Int) = 127 → w = -128) ∧ ((127 : Int) < 127 → w = 127 + 1) :=
  ⟨by decide, by decide,
    (C9_cell_arithmetic_wraps .Char ['+', NUL]
      { i := 0, tape := { prev := [], data := 127 :: List.replicate 63 0, next := [] },
        pos := 0, heap := 0, stdin := [], stdout := [] } 127 (by decide) (by decide)
      (by decide)).1 (by decide)⟩

/-- C10: tape growth is symmetric and lossless. From a cursor inside a block, a successful
`seekTape` to the left followed by a `seekTape` to the right succeeds and is back at the same
offset of the same block: the cells of the block and the chain to its right are as they were,
and so is the chain to its left, apart from one fresh all zero block at its far end when the
cursor started at offset 0 of the leftmost block. The same holds with left and right exchanged,
the fresh block then coming from offset 63 of the rightmost block. -/
theorem C10_seek_there_and_back (heap : Nat) (tape : Tape) (pos : Int) (h0 : 0 ≤ pos)
    (h1 : pos < 64) :
    ((seekTape heap tape pos .Left).ok = true →
      ∃ back, back = seekTape (seekTape heap tape pos .Left).heap
          (seekTape heap tape pos .Left).tape (seekTape heap tape pos .Left).pos .Right ∧
        back.ok = true ∧ back.pos = pos ∧ back.tape.data = tape.data ∧
        back.tape.next = tape.next ∧
        (back.tape.prev = tape.prev ∨
          (pos = 0 ∧ tape.prev = [] ∧ back.tape.prev = [List.replicate 64 0]))) ∧
    ((seekTape heap tape pos .Right).ok = true →
      ∃ back, back = seekTape (seekTape heap tape pos .Right).heap
          (seekTape heap tape pos .Right).tape (seekTape heap tape pos .Right).pos .Left ∧
        back.ok = true ∧ back.pos = pos ∧ back.tape.data = tape.data ∧
        back.tape.prev = tape.prev ∧
        (back.tape.next = tape.next ∨
          (pos = 63 ∧ tape.next = [] ∧ back.tape.next = [List.replicate 64 0]))) := by
  obtain ⟨prev, data, next⟩ := tape
  constructor
  · intro hok
    refine ⟨_, rfl, ?_⟩
    by_cases hp : pos = 0
    · subst hp
      cases prev with
      | nil =>
        cases heap with
        | zero => simp [seekTape, makeTape] at hok
        | succ h => simp [seekTape, makeTape, TAPE_WIDTH]
      | cons b more => simp [seekTape, TAPE_WIDTH]
    · have e1 : ¬ (pos - 1 < 0) := by omega
      have e2 : ¬ (64 ≤ pos) := by omega
      have e3 : ¬ (pos < 1) := by omega
      simp [seekTape, TAPE_WIDTH, e1, e2, e3]
  · intro hok
    refine ⟨_, rfl, ?_⟩
    by_cases hp : pos = 63
    · subst hp
      cases next with
      | nil =>
        cases heap with
        | zero => simp [seekTape, makeTape, TAPE_WIDTH] at hok
        | succ h => simp [seekTape, makeTape, TAPE_WIDTH]
      | cons b more => simp [seekTape, TAPE_WIDTH]
    · have e1 : ¬ (64 ≤ pos + 1) := by omega
      have e2 : ¬ (pos < 0) := by omega
      have e3 : ¬ (63 ≤ pos) := by omega
      simp [seekTape, TAPE_WIDTH, e1, e2, e3]

/-- C10 from offset 0 of the only block of a tape, with one block left on the heap: the seek to
the left allocates, and the seek back finds the block as it was. -/
theorem C10_seek_there_and_back_witness :
    (seekTape 1 { prev := [], data := 5 :: List.replicate 63 0, next := [] } 0 .Left).ok = true ∧
    (seekTape 1 { prev := [], data := 5 :: List.replicate 63 0, next := [] } 0 .Left).pos = 63 ∧
    ∃ back, back = seekTape
          (seekTape 1 { prev := [], data := 5 :: List.replicate 63 0, next := [] } 0 .Left).heap
          (seekTape 1 { prev := [], data := 5 :: List.replicate 63 0, next := [] } 0 .Left).tape
          (seekTape 1 { prev := [], data := 5 :: List.replicate 63 0, next := [] } 0 .Left).pos
          .Right ∧
      back.ok = true ∧ back.pos = 0 ∧ back.tape.data = 5 :: List.replicate 63 0 ∧
      back.tape.next = [] ∧
      (back.tape.prev = [] ∨
        ((0 : Int) = 0 ∧ ([] : List Block) = [] ∧ back.tape.prev = [List.replicate 64 0])) :=
  ⟨by decide, by decide,
    (C10_seek_there_and_back 1 { prev := [], data := 5 :: List.replicate 63 0, next := [] } 0
      (by decide) (by decide)).1 (by decide)⟩

/-! ### Running a script -/

theorem runLoop_next (style : PrintStyle) (script : List Char) (fuel : Nat) (s s1 : State)
    (c : Char) (hc : readScript script s.i = some c) (hn : c ≠ NUL)
    (hs : step style script s = .next s1) :
    runLoop style script (fuel + 1) s = runLoop style script fuel s1 := by
  simp [runLoop, hc, hn, hs]

theorem runLoop_halted (style : PrintStyle) (script : List Char) (fuel : Nat) (s : State)
    (hc : readScript script s.i = some NUL) :
    runLoop style script (fuel + 1) s = .halted s := by
  simp [runLoop, hc]

/-- The body of `[-]`: from the `-` with a nonzero cell `w`, the loop halts at the end sentinel
with the cell zero, after `(w mod 256)` rounds of two instructions. -/
theorem clear_loop_rounds (style : PrintStyle) (n : Nat) :
    ∀ (tape : Tape) (pos : Int) (heap : Nat) (stdin stdout : List Nat) (w : Int),
      readCell tape pos = some w → -128 ≤ w → w ≤ 127 → (w % 256).toNat = n + 1 →
      ∀ fuel, 2 * n + 3 ≤ fuel →
        runLoop style (terminated ['[', '-', ']']) fuel
            { i := 1, tape := tape, pos := pos, heap := heap, stdin := stdin, stdout := stdout } =
          .halted { i := 3, tape := writeCell tape pos 0, pos := pos, heap := heap,
                    stdin := stdin, stdout := stdout } := by
  induction n with
  | zero =>
    intro tape pos heap stdin stdout w hw hlo hhi hn fuel hfuel
    obtain ⟨fuel, rfl⟩ : ∃ f, fuel = f + 3 := ⟨fuel - 3, by omega⟩
    have hw1 : toChar (w - 1) = 0 := by
      unfold toChar
      omega
    rw [runLoop_next style _ (fuel + 2) _
        { i := 2, tape := writeCell tape pos 0, pos := pos, heap := heap, stdin := stdin,
          stdout := stdout } '-' (by rfl) (by decide)
        (by simp [step, readScript, terminated, hw, hw1])]
    rw [runLoop_next style _ (fuel + 1) _
        { i := 3, tape := writeCell tape pos 0, pos := pos, heap := heap, stdin := stdin,
          stdout := stdout } ']' (by rfl) (by decide)
        (by simp [step, readScript, terminated, readCell_writeCell tape pos w 0 hw])]
    exact runLoop_halted style _ fuel _ rfl
  | succ n ih =>
    intro tape pos heap stdin stdout w hw hlo hhi hn fuel hfuel
    obtain ⟨fuel, rfl⟩ : ∃ f, fuel = f + 2 := ⟨fuel - 2, by omega⟩
    have hw1 : toChar (w - 1) ≠ 0 := by
      unfold toChar
      omega
    have hw2 : (toChar (w - 1) % 256).toNat = n + 1 := by
      unfold toChar
      omega
    rw [runLoop_next style _ (fuel + 1) _
        { i := 2, tape := writeCell tape pos (toChar (w - 1)), pos := pos, heap := heap,
          stdin := stdin, stdout := stdout } '-' (by rfl) (by decide)
        (by simp [step, readScript, terminated, hw])]
    rw [runLoop_next style _ fuel _
        { i := 1, tape := writeCell tape pos (toChar (w - 1)), pos := pos, heap := heap,
          stdin := stdin, stdout := stdout } ']' (by rfl) (by decide)
        (by simp [step, readScript, terminated, readCell_writeCell tape pos w _ hw, hw1,
          scanBackward])]
    rw [ih _ pos heap stdin stdout (toChar (w - 1)) (readCell_writeCell tape pos w _ hw)
      (toChar_range _).1 (toChar_range _).2 hw2 fuel (by omega), writeCell_writeCell]

/-- C8: whatever value the current cell holds, running `[-]` halts: after finitely many passes
of the loop of `run` the instruction pointer is on the end sentinel, the current cell is zero,
and every other cell, the chain of blocks, the cursor, the input and the output are as they
were. -/
theorem C8_clear_loop_terminates (style : PrintStyle) (s : State) (v : Int) (hi : s.i = 0)
    (hv : readCell s.tape s.pos = some v) (hlo : -128 ≤ v) (hhi : v ≤ 127) :
    ∃ steps, ∀ fuel, steps ≤ fuel →
      ∃ s1, runLoop style (terminated ['[', '-', ']']) fuel s = .halted s1 ∧
        readScript (terminated ['[', '-', ']']) s1.i = some NUL ∧ s1.i = 3 ∧
        readCell s1.tape s1.pos = some 0 ∧
        (∀ j, j ≠ s.pos → readCell s1.tape j = readCell s.tape j) ∧
        s1.tape.prev = s.tape.prev ∧ s1.tape.next = s.tape.next ∧
        s1.tape.data.length = s.tape.data.length ∧
        s1.pos = s.pos ∧ s1.stdout = s.stdout ∧ s1.stdin = s.stdin ∧ s1.heap = s.heap := by
  obtain ⟨i, tape, pos, heap, stdin, stdout⟩ := s
  simp only at hi hv
  subst hi
  have hp : 0 ≤ pos := by
    by_contra hneg
    simp [readCell, hneg] at hv
  refine ⟨2 * (v % 256).toNat + 2, fun fuel hfuel => ?_⟩
  by_cases hz : v = 0
  · subst hz
    obtain ⟨fuel, rfl⟩ : ∃ f, fuel = f + 2 := ⟨fuel - 2, by omega⟩
    refine ⟨{ i := 3, tape := tape, pos := pos, heap := heap, stdin := stdin, stdout := stdout },
      ?_, rfl, rfl, hv, fun _ _ => rfl, rfl, rfl, rfl, rfl, rfl, rfl, rfl⟩
    rw [runLoop_next style _ (fuel + 1) _
        { i := 3, tape := tape, pos := pos, heap := heap, stdin := stdin, stdout := stdout }
        '[' (by rfl) (by decide)
        (by simp [step, readScript, terminated, hv, scanForward])]
    exact runLoop_halted style _ fuel _ rfl
  · obtain ⟨n, hn⟩ : ∃ n, (v % 256).toNat = n + 1 := ⟨(v % 256).toNat - 1, by omega⟩
    obtain ⟨fuel, rfl⟩ : ∃ f, fuel = f + 1 := ⟨fuel - 1, by omega⟩
    refine ⟨{ i := 3, tape := writeCell tape pos 0, pos := pos, heap := heap, stdin := stdin,
              stdout := stdout },
      ?_, rfl, rfl, readCell_writeCell tape pos v 0 hv,
      fun j hj => readCell_writeCell_ne tape pos j 0 hp hj, rfl, rfl, by simp [writeCell], rfl,
      rfl, rfl, rfl⟩
    rw [runLoop_next style _ fuel _
        { i := 1, tape := tape, pos := pos, heap := heap, stdin := stdin, stdout := stdout }
        '[' (by rfl) (by decide)
        (by simp [step, readScript, terminated, hv, hz])]
    exact clear_loop_rounds style n tape pos heap stdin stdout v hv hlo hhi hn fuel (by omega)

/-- C8 for `run` itself, called with a fresh block whose first cell holds `-1`, the byte 255:
255 rounds. -/
theorem C8_clear_loop_terminates_witness :
    ∃ steps, ∀ fuel, steps ≤ fuel →
      ∃ s1, run fuel (terminated ['[', '-', ']'])
          { prev := [], data := -1 :: List.replicate 63 0, next := [] } .Char 0 [] [] =
          .halted s1 ∧
        readScript (terminated ['[', '-', ']']) s1.i = some NUL ∧ s1.i = 3 ∧
        readCell s1.tape s1.pos = some 0 ∧
        (∀ j, j ≠ 0 → readCell s1.tape j =
          readCell { prev := [], data := -1 :: List.replicate 63 0, next := [] } j) ∧
        s1.tape.prev = [] ∧ s1.tape.next = [] ∧
        s1.tape.data.length = (-1 :: List.replicate 63 (0 : Int)).length ∧
        s1.pos = 0 ∧ s1.stdout = [] ∧ s1.stdin = [] ∧ s1.heap = 0 :=
  C8_clear_loop_terminates .Char
    { i := 0, tape := { prev := [], data := -1 :: List.replicate 63 0, next := [] },
      pos := 0, heap := 0, stdin := [], stdout := [] } (-1) rfl (by decide) (by decide)
    (by decide)

/-! ### The cursor invariant -/

theorem seekTape_valid (heap : Nat) (tape : Tape) (pos : Int) (dir : Direction)
    (hv : CursorValid tape pos) (hok : (seekTape heap tape pos dir).ok = true) :
    CursorValid (seekTape heap tape pos dir).tape (seekTape heap tape pos dir).pos := by
  obtain ⟨prev, data, next⟩ := tape
  obtain ⟨h0, h1, hd, hp, hn⟩ := hv
  simp only [TAPE_WIDTH] at h1 hd hp hn
  simp only [Nat.cast_ofNat] at h1
  cases dir with
  | Left =>
    by_cases hz : pos = 0
    · subst hz
      cases prev with
      | nil =>
        cases heap with
        | zero => simp [seekTape, makeTape] at hok
        | succ h =>
          simp only [seekTape, makeTape, CursorValid, TAPE_WIDTH]
          simp
          exact ⟨hd, hn⟩
      | cons b more =>
        simp only [seekTape, CursorValid, TAPE_WIDTH]
        simp
        simp at hp
        exact ⟨hp.1, hp.2, hd, hn⟩
    · have e1 : ¬ (pos - 1 < 0) := by omega
      simp only [seekTape, CursorValid, TAPE_WIDTH, e1, false_and, if_false]
      simp
      exact ⟨by omega, by omega, hd, hp, hn⟩
  | Right =>
    by_cases hz : pos = 63
    · subst hz
      cases next with
      | nil =>
        cases heap with
        | zero => simp [seekTape, makeTape, TAPE_WIDTH] at hok
        | succ h =>
          simp only [seekTape, makeTape, CursorValid, TAPE_WIDTH]
          simp
          exact ⟨hd, hp⟩
      | cons b more =>
        simp only [seekTape, CursorValid, TAPE_WIDTH]
        simp
        simp at hn
        exact ⟨hn.1, ⟨hd, hp⟩, hn.2⟩
    · have e1 : ¬ (pos + 1 ≥ ((64 : Nat) : Int)) := by omega
      simp only [seekTape, CursorValid, TAPE_WIDTH, e1, false_and, if_false]
      simp
      exact ⟨by omega, by omega, hd, hp, hn⟩

theorem writeCell_valid (tape : Tape) (pos j v : Int) (hv : CursorValid tape pos) :
    CursorValid (writeCell tape j v) pos := by
  obtain ⟨h0, h1, hd, hp, hn⟩ := hv
  exact ⟨h0, h1, by simpa [writeCell] using hd, hp, hn⟩

theorem readCell_valid (tape : Tape) (pos : Int) (hv : CursorValid tape pos) :
    ∃ v, readCell tape pos = some v := by
  obtain ⟨h0, h1, hd, -, -⟩ := hv
  have hlt : pos.toNat < tape.data.length := by
    rw [hd]
    simp only [TAPE_WIDTH] at h1 ⊢
    omega
  exact ⟨tape.data[pos.toNat], by simp [readCell, h0, List.getElem?_eq_getElem hlt]⟩

/-! ### One pass of the loop of `run`, instruction by instruction -/

theorem step_unreadable (style : PrintStyle) (script : List Char) (s : State)
    (h : readScript script s.i = none) : step style script s = .fault := by
  simp [step, h]

theorem step_right (style : PrintStyle) (script : List Char) (s : State)
    (h : readScript script s.i = some '>') :
    step style script s =
      if (seekTape s.heap s.tape s.pos .Right).ok then
        .next { s with tape := (seekTape s.heap s.tape s.pos .Right).tape
                       pos := (seekTape s.heap s.tape s.pos .Right).pos
                       heap := (seekTape s.heap s.tape s.pos .Right).heap
                       i := s.i + 1 }
      else
        .memory { s with pos := (seekTape s.heap s.tape s.pos .Right).pos
                         heap := (seekTape s.heap s.tape s.pos .Right).heap
                         stdout := s.stdout ++ ERROR_MEMORY } := by
  simp [step, h]

theorem step_left (style : PrintStyle) (script : List Char) (s : State)
    (h : readScript script s.i = some '<') :
    step style script s =
      if (seekTape s.heap s.tape s.pos .Left).ok then
        .next { s with tape := (seekTape s.heap s.tape s.pos .Left).tape
                       pos := (seekTape s.heap s.tape s.pos .Left).pos
                       heap := (seekTape s.heap s.tape s.pos .Left).heap
                       i := s.i + 1 }
      else
        .memory { s with pos := (seekTape s.heap s.tape s.pos .Left).pos
                         heap := (seekTape s.heap s.tape s.pos .Left).heap
                         stdout := s.stdout ++ ERROR_MEMORY } := by
  simp [step, h]

theorem step_plus (style : PrintStyle) (script : List Char) (s : State) (v : Int)
    (h : readScript script s.i = some '+') (hv : readCell s.tape s.pos = some v) :
    step style script s =
      .next { s with tape := writeCell s.tape s.pos (toChar (v + 1)), i := s.i + 1 } := by
  simp [step, h, hv]

theorem step_minus (style : PrintStyle) (script : List Char) (s : State) (v : Int)
    (h : readScript script s.i = some '-') (hv : readCell s.tape s.pos = some v) :
    step style script s =
      .next { s with tape := writeCell s.tape s.pos (toChar (v - 1)), i := s.i + 1 } := by
  simp [step, h, hv]

theorem step_dot (style : PrintStyle) (script : List Char) (s : State) (v : Int)
    (h : readScript script s.i = some '.') (hv : readCell s.tape s.pos = some v) :
    step style script s =
      .next { s with stdout := s.stdout ++ (if style = .Int then printfInt v else [putchar v])
                     i := s.i + 1 } := by
  by_cases hs : style = .Int
  · simp [step, h, hv, hs]
  · simp [step, h, hv, hs]

theorem step_comma (style : PrintStyle) (script : List Char) (s : State) (v : Int)
    (h : readScript script s.i = some ',') (hv : readCell s.tape s.pos = some v) :
    step style script s =
      .next { s with tape := writeCell s.tape s.pos (toChar (getchar s.stdin).1)
                     stdin := (getchar s.stdin).2, i := s.i + 1 } := by
  simp [step, h, hv]

theorem step_open (style : PrintStyle) (script : List Char) (s : State) (v : Int)
    (h : readScript script s.i = some '[') (hv : readCell s.tape s.pos = some v) :
    step style script s =
      if v ≠ 0 then .next { s with i := s.i + 1 }
      else
        match scanForward (script.drop (s.i + 1).toNat) 1 (s.i + 1) with
        | none => .fault
        | some j => .next { s with i := j } := by
  simp [step, h, hv]

theorem step_close (style : PrintStyle) (script : List Char) (s : State) (v : Int)
    (h : readScript script s.i = some ']') (hv : readCell s.tape s.pos = some v) :
    step style script s =
      if v = 0 then .next { s with i := s.i + 1 }
      else
        match scanBackward (script.take s.i.toNat).reverse 1 (s.i - 1) with
        | none => .fault
        | some j => .next { s with i := j + 2 } := by
  simp [step, h, hv]

theorem step_comment (style : PrintStyle) (script : List Char) (s : State) (c : Char)
    (h : readScript script s.i = some c) (hc : c ∉ SYMBOLS) :
    step style script s = .next s := by
  simp only [SYMBOLS, List.mem_cons, List.mem_singleton, not_or, List.not_mem_nil,
    or_false] at hc
  obtain ⟨h1, h2, h3, h4, h5, h6, h7, h8⟩ := hc
  simp [step, h, h1, h2, h3, h4, h5, h6, h7, h8]

theorem step_no_cell (style : PrintStyle) (script : List Char) (s : State) (c : Char)
    (h : readScript script s.i = some c) (hc : c ∈ ['+', '-', '.', ',', '[', ']'])
    (hv : readCell s.tape s.pos = none) : step style script s = .fault := by
  simp only [List.mem_cons, List.mem_singleton, List.not_mem_nil, or_false] at hc
  rcases hc with e | e | e | e | e | e <;> subst e <;> simp [step, h, hv]

/-- One pass of the loop of `run` keeps the cursor invariant. -/
theorem step_valid (style : PrintStyle) (script : List Char) (s s1 : State)
    (hv : CursorValid s.tape s.pos) (h : step style script s = .next s1) :
    CursorValid s1.tape s1.pos := by
  obtain ⟨v, hcell⟩ := readCell_valid s.tape s.pos hv
  cases hr : readScript script s.i with
  | none =>
    rw [step_unreadable style script s hr] at h
    cases h
  | some c =>
    by_cases hc : c ∈ SYMBOLS
    · simp only [SYMBOLS, List.mem_cons, List.mem_singleton, List.not_mem_nil, or_false] at hc
      rcases hc with e | e | e | e | e | e | e | e <;> subst e
      · rw [step_right style script s hr] at h
        split_ifs at h with hok
        injection h with h
        subst h
        exact seekTape_valid _ _ _ _ hv hok
      · rw [step_left style script s hr] at h
        split_ifs at h with hok
        injection h with h
        subst h
        exact seekTape_valid _ _ _ _ hv hok
      · rw [step_plus style script s v hr hcell] at h
        injection h with h
        subst h
        exact writeCell_valid _ _ _ _ hv
      · rw [step_minus style script s v hr hcell] at h
        injection h with h
        subst h
        exact writeCell_valid _ _ _ _ hv
      · rw [step_open style script s v hr hcell] at h
        split_ifs at h
        · injection h with h
          subst h
          exact hv
        · split at h
          · cases h
          · injection h with h
            subst h
            exact hv
      · rw [step_close style script s v hr hcell] at h
        split_ifs at h
        · injection h with h
          subst h
          exact hv
        · split at h
          · cases h
          · injection h with h
            subst h
            exact hv
      · rw [step_dot style script s v hr hcell] at h
        injection h with h
        subst h
        exact hv
      · rw [step_comma style script s v hr hcell] at h
        injection h with h
        subst h
        exact writeCell_valid _ _ _ _ hv
    · rw [step_comment style script s c hr hc] at h
      injection h with h
      subst h
      exact hv

/-- A property that every pass of the loop keeps holds in every state the loop passes through
and in the state in which it halts. -/
theorem runLoop_invariant (style : PrintStyle) (script : List Char) (P : State → Prop)
    (hstep : ∀ s s1 c, P s → readScript script s.i = some c → c ≠ NUL →
      step style script s = .next s1 → P s1) :
    ∀ fuel s0 s, P s0 →
      (runLoop style script fuel s0 = .running s ∨ runLoop style script fuel s0 = .halted s) →
      P s := by
  intro fuel
  induction fuel with
  | zero =>
    intro s0 s h0 h
    simp only [runLoop] at h
    rcases h with h | h
    · injection h with h
      subst h
      exact h0
    · cases h
  | succ fuel ih =>
    intro s0 s h0 h
    cases hr : readScript script s0.i with
    | none =>
      simp [runLoop, hr] at h
    | some c =>
      by_cases hc : c = NUL
      · simp only [runLoop, hr, hc, if_true] at h
        rcases h with h | h
        · cases h
        · injection h with h
          subst h
          exact h0
      · cases hs : step style script s0 with
        | fault => simp [runLoop, hr, hc, hs] at h
        | memory s1 => simp [runLoop, hr, hc, hs] at h
        | next s1 =>
          simp only [runLoop, hr, hc, hs, if_false] at h
          exact ih s1 s (hstep s0 s1 c h0 hr hc hs) h

/-- C11: from the initial state of `run` on the fresh block of `makeTape`, whatever the script,
in every state the loop passes through and in the state in which it halts the offset is at least
0 and less than 64, every block of the chain, the current one included, has 64 cells, and so the
cell `tape->data[pos]` is inside the current block. -/
theorem C11_cursor_stays_in_block (style : PrintStyle) (script : List Char) (h0 heap : Nat)
    (tape : Tape) (stdin stdout : List Nat) (fuel : Nat) (s : State)
    (hfresh : makeTape h0 = (some tape, heap))
    (h : run fuel script tape style heap stdin stdout = .running s ∨
      run fuel script tape style heap stdin stdout = .halted s) :
    0 ≤ s.pos ∧ s.pos < 64 ∧ s.tape.data.length = 64 ∧
      (∀ b ∈ s.tape.prev, b.length = 64) ∧ (∀ b ∈ s.tape.next, b.length = 64) ∧
      ∃ v, readCell s.tape s.pos = some v := by
  have hinit : CursorValid tape 0 := by
    cases h0 with
    | zero => simp [makeTape] at hfresh
    | succ n =>
      simp only [makeTape, Prod.mk.injEq, Option.some.injEq] at hfresh
      rw [← hfresh.1]
      simp [CursorValid, TAPE_WIDTH]
  have hv : CursorValid s.tape s.pos :=
    runLoop_invariant style script (fun s => CursorValid s.tape s.pos)
      (fun a b _ ha _ _ hs => step_valid style script a b ha hs) fuel _ s hinit h
  obtain ⟨v, hcell⟩ := readCell_valid s.tape s.pos hv
  obtain ⟨e0, e1, e2, e3, e4⟩ := hv
  exact ⟨e0, e1, e2, e3, e4, v, hcell⟩

/-- C11 after the two passes of `<+` with two blocks on the heap: the cursor is at offset 63
of the block that `<` has allocated. -/
theorem C11_cursor_stays_in_block_witness :
    run 2 ['<', '+', NUL] { prev := [], data := List.replicate 64 0, next := [] } .Char 1 [] [] =
      .running { i := 2
                 tape := { prev := [], data := List.replicate 63 0 ++ [1],
                           next := [List.replicate 64 0] }
                 pos := 63, heap := 0, stdin := [], stdout := [] } ∧
    ((0 : Int) ≤ 63 ∧ (63 : Int) < 64 ∧ (List.replicate 63 (0 : Int) ++ [1]).length = 64 ∧
      (∀ b ∈ ([] : List Block), b.length = 64) ∧
      (∀ b ∈ [List.replicate 64 (0 : Int)], b.length = 64) ∧
      ∃ v, readCell { prev := [], data := List.replicate 63 0 ++ [1],
                      next := [List.replicate 64 0] } 63 = some v) :=
  ⟨by decide, C11_cursor_stays_in_block .Char ['<', '+', NUL] 2 1
    { prev := [], data := List.replicate 64 0, next := [] } [] [] 2
    { i := 2, tape := { prev := [], data := List.replicate 63 0 ++ [1],
                        next := [List.replicate 64 0] },
      pos := 63, heap := 0, stdin := [], stdout := [] } (by decide) (Or.inl (by decide))⟩

theorem mem_of_readScript (script : List Char) (i : Int) (c : Char)
    (h : readScript script i = some c) : c ∈ script := by
  unfold readScript at h
  split_ifs at h
  exact List.mem_iff_getElem?.mpr ⟨_, h⟩

theorem seekTape_more_heap (heap k : Nat) (tape : Tape) (pos : Int) (dir : Direction)
    (hok : (seekTape heap tape pos dir).ok = true) :
    seekTape (heap + k) tape pos dir =
      { seekTape heap tape pos dir with heap := (seekTape heap tape pos dir).heap + k } := by
  cases dir with
  | Left =>
    by_cases h1 : pos - 1 < 0 ∧ tape.prev = []
    · cases heap with
      | zero => simp [seekTape, h1, makeTape] at hok
      | succ h =>
        have : h + 1 + k = (h + k) + 1 := by omega
        simp [seekTape, h1, makeTape, this]
    · by_cases h2 : pos - 1 < 0
      · cases hp : tape.prev with
        | nil => exact absurd ⟨h2, hp⟩ h1
        | cons b more => simp [seekTape, h2, hp]
      · simp [seekTape, h2]
  | Right =>
    by_cases h1 : pos + 1 ≥ (TAPE_WIDTH : Int) ∧ tape.next = []
    · cases heap with
      | zero => simp [seekTape, h1, makeTape] at hok
      | succ h =>
        have : h + 1 + k = (h + k) + 1 := by omega
        simp [seekTape, h1, makeTape, this]
    · by_cases h2 : pos + 1 ≥ (TAPE_WIDTH : Int)
      · cases hp : tape.next with
        | nil => exact absurd ⟨h2, hp⟩ h1
        | cons b more => simp [seekTape, h2, hp]
      · simp [seekTape, h2]

/-- A pass that does not read the input goes the same way with more blocks on the heap, another
input and bytes already written. -/
theorem step_env (style : PrintStyle) (script : List Char) (s s1 : State) (k : Nat)
    (inp pre : List Nat) (hno : ',' ∉ script) (h : step style script s = .next s1) :
    step style script { s with heap := s.heap + k, stdin := inp, stdout := pre ++ s.stdout } =
      .next { s1 with heap := s1.heap + k, stdin := inp, stdout := pre ++ s1.stdout } := by
  obtain ⟨i, tape, pos, heap, stdin, stdout⟩ := s
  cases hr : readScript script i with
  | none =>
    rw [step_unreadable style script _ hr] at h
    cases h
  | some c =>
    by_cases hc : c ∈ SYMBOLS
    · cases hcell : readCell tape pos with
      | none =>
        simp only [SYMBOLS, List.mem_cons, List.mem_singleton, List.not_mem_nil, or_false] at hc
        rcases hc with e | e | e | e | e | e | e | e <;> subst e
        · rw [step_right style script _ hr] at h
          rw [step_right style script _ hr]
          split_ifs at h with hok
          injection h with h
          subst h
          simp only [seekTape_more_heap heap k tape pos .Right hok, hok, if_true]
        · rw [step_left style script _ hr] at h
          rw [step_left style script _ hr]
          split_ifs at h with hok
          injection h with h
          subst h
          simp only [seekTape_more_heap heap k tape pos .Left hok, hok, if_true]
        · rw [step_no_cell style script _ _ hr (by decide) hcell] at h
          cases h
        · rw [step_no_cell style script _ _ hr (by decide) hcell] at h
          cases h
        · rw [step_no_cell style script _ _ hr (by decide) hcell] at h
          cases h
        · rw [step_no_cell style script _ _ hr (by decide) hcell] at h
          cases h
        · rw [step_no_cell style script _ _ hr (by decide) hcell] at h
          cases h
        · rw [step_no_cell style script _ _ hr (by decide) hcell] at h
          cases h
      | some v =>
        simp only [SYMBOLS, List.mem_cons, List.mem_singleton, List.not_mem_nil, or_false] at hc
        rcases hc with e | e | e | e | e | e | e | e <;> subst e
        · rw [step_right style script _ hr] at h
          rw [step_right style script _ hr]
          split_ifs at h with hok
          injection h with h
          subst h
          simp only [seekTape_more_heap heap k tape pos .Right hok, hok, if_true]
        · rw [step_left style script _ hr] at h
          rw [step_left style script _ hr]
          split_ifs at h with hok
          injection h with h
          subst h
          simp only [seekTape_more_heap heap k tape pos .Left hok, hok, if_true]
        · rw [step_plus style script _ v hr hcell] at h
          rw [step_plus style script _ v hr hcell]
          injection h with h
          subst h
          rfl
        · rw [step_minus style script _ v hr hcell] at h
          rw [step_minus style script _ v hr hcell]
          injection h with h
          subst h
          rfl
        · rw [step_open style script _ v hr hcell] at h
          rw [step_open style script _ v hr hcell]
          split_ifs at h with hz
          · injection h with h
            subst h
            simp [hz]
          · split at h
            · cases h
            · rename_i j hj
              injection h with h
              subst h
              simp only [hz, hj]
              simp
        · rw [step_close style script _ v hr hcell] at h
          rw [step_close style script _ v hr hcell]
          split_ifs at h with hz
          · injection h with h
            subst h
            simp [hz]
          · split at h
            · cases h
            · rename_i j hj
              injection h with h
              subst h
              simp only [hz, hj]
              simp
        · rw [step_dot style script _ v hr hcell] at h
          rw [step_dot style script _ v hr hcell]
          injection h with h
          subst h
          simp
        · exact absurd (mem_of_readScript script i _ hr) hno
    · rw [step_comment style script _ c hr hc] at h
      rw [step_comment style script _ c hr hc]
      injection h with h
      subst h
      rfl

/-- A run that halts without reading the input halts in the same way with more blocks on the
heap, another input and bytes already written. -/
theorem runLoop_env (style : PrintStyle) (script : List Char) (k : Nat) (inp pre : List Nat)
    (hno : ',' ∉ script) :
    ∀ fuel s s1, runLoop style script fuel s = .halted s1 →
      runLoop style script fuel
          { s with heap := s.heap + k, stdin := inp, stdout := pre ++ s.stdout } =
        .halted { s1 with heap := s1.heap + k, stdin := inp, stdout := pre ++ s1.stdout } := by
  intro fuel
  induction fuel with
  | zero =>
    intro s s1 h
    simp [runLoop] at h
  | succ fuel ih =>
    intro s s1 h
    cases hr : readScript script s.i with
    | none => simp [runLoop, hr] at h
    | some c =>
      by_cases hc : c = NUL
      · simp only [runLoop, hr, hc, if_true] at h ⊢
        injection h with h
        subst h
        rfl
      · cases hs : step style script s with
        | fault => simp [runLoop, hr, hc, hs] at h
        | memory s2 => simp [runLoop, hr, hc, hs] at h
        | next s2 =>
          simp only [runLoop, hr, hc, hs, if_false] at h
          have := step_env style script s s2 k inp pre hno hs
          simp only [runLoop, hr, hc, this, if_false]
          exact ih s2 s1 h

/-- A run that has halted stays halted, in the same state, when it is given more passes. -/
theorem runLoop_more_fuel (style : PrintStyle) (script : List Char) :
    ∀ fuel s s1, runLoop style script fuel s = .halted s1 →
      ∀ more, fuel ≤ more → runLoop style script more s = .halted s1 := by
  intro fuel
  induction fuel with
  | zero =>
    intro s s1 h
    simp [runLoop] at h
  | succ fuel ih =>
    intro s s1 h more hmore
    obtain ⟨more, rfl⟩ : ∃ m, more = m + 1 := ⟨more - 1, by omega⟩
    cases hr : readScript script s.i with
    | none => simp [runLoop, hr] at h
    | some c =>
      by_cases hc : c = NUL
      · simp only [runLoop, hr, hc, if_true] at h ⊢
        exact h
      · cases hs : step style script s with
        | fault => simp [runLoop, hr, hc, hs] at h
        | memory s2 => simp [runLoop, hr, hc, hs] at h
        | next s2 =>
          simp only [runLoop, hr, hc, hs, if_false] at h ⊢
          exact ih s2 s1 h more (by omega)

set_option maxRecDepth 1000000 in
/-- The run of the multiplication script with an empty heap and no input, pass by pass. -/
theorem multiply_closed :
    runLoop .Char (terminated "++++++++[>++++++++<-]>.".toList) 108
        { i := 0, tape := { prev := [], data := List.replicate 64 0, next := [] }, pos := 0,
          heap := 0, stdin := [], stdout := [] } =
      .halted { i := 23
                tape := { prev := [], data := 0 :: 64 :: List.replicate 62 0, next := [] }
                pos := 1, heap := 0, stdin := [], stdout := [64] } := by
  decide

/-- C12: running `++++++++[>++++++++<-]>.` in character mode on a fresh block, whatever the
input and the heap, halts after 107 instructions: the instruction pointer is on the end sentinel,
the cursor is one cell to the right of the start, that cell holds 64, the start cell holds 0, and
the output is the single byte 64. -/
theorem C12_multiply_prints_at_sign (heap : Nat) (stdin : List Nat) :
    ∃ s1, (∀ fuel, 108 ≤ fuel →
        run fuel (terminated "++++++++[>++++++++<-]>.".toList)
          { prev := [], data := List.replicate TAPE_WIDTH 0, next := [] } .Char heap stdin [] =
          .halted s1) ∧
      readScript (terminated "++++++++[>++++++++<-]>.".toList) s1.i = some NUL ∧
      s1.pos = 1 ∧ readCell s1.tape 1 = some 64 ∧ readCell s1.tape 0 = some 0 ∧
      s1.tape = { prev := [], data := 0 :: 64 :: List.replicate 62 0, next := [] } ∧
      s1.stdout = [64] ∧ s1.stdout = bytes "@" ∧ s1.stdin = stdin ∧ s1.heap = heap := by
  refine ⟨{ i := 23
            tape := { prev := [], data := 0 :: 64 :: List.replicate 62 0, next := [] }
            pos := 1, heap := heap, stdin := stdin, stdout := [64] }, fun fuel hfuel => ?_,
    by rfl, rfl, by rfl, by rfl, rfl, rfl, by rfl, rfl, rfl⟩
  have h := runLoop_env .Char (terminated "++++++++[>++++++++<-]>.".toList) heap stdin []
    (by decide) 108 _ _ multiply_closed
  simp only [Nat.zero_add, List.nil_append] at h
  exact runLoop_more_fuel .Char _ 108 _ _ h fuel hfuel

/-! ### Input and output -/

theorem bytes_append (a b : String) : bytes (a ++ b) = bytes a ++ bytes b := by
  simp [bytes, String.data_append]

theorem bytes_toString_nat (n : Nat) : bytes (toString n) = decimal n := by
  simp [bytes, decimal, toString, Nat.repr, String.toList, List.asString]

/-- The model of `printf("%d ", v)` writes the decimal numeral of `v` and a space. -/
theorem printfInt_eq (v : Int) : printfInt v = bytes (toString v ++ " ") := by
  unfold printfInt
  rw [bytes_append]
  cases v with
  | ofNat n =>
    have h1 : ¬ ((Int.ofNat n) < 0) := by simp
    have h2 : toString (Int.ofNat n) = toString n := rfl
    rw [if_neg h1, h2, bytes_toString_nat]
    simp [bytes]
  | negSucc n =>
    have h1 : (Int.negSucc n) < 0 := Int.negSucc_lt_zero n
    have h2 : toString (Int.negSucc n) = "-" ++ toString (n + 1) := rfl
    rw [if_pos h1, h2, bytes_append, bytes_toString_nat]
    simp [bytes]

/-- The run of `,.` on a fresh block: two instructions, then the end sentinel. -/
theorem echo_run (style : PrintStyle) (b heap : Nat) (rest : List Nat) (fuel : Nat)
    (hfuel : 3 ≤ fuel) :
    run fuel (terminated [',', '.'])
        { prev := [], data := List.replicate TAPE_WIDTH 0, next := [] } style heap (b :: rest) [] =
      .halted { i := 2
                tape := writeCell { prev := [], data := List.replicate TAPE_WIDTH 0, next := [] }
                  0 (toChar b)
                pos := 0, heap := heap, stdin := rest
                stdout := if style = .Int then printfInt (toChar b) else [putchar (toChar b)] } := by
  obtain ⟨fuel, rfl⟩ : ∃ f, fuel = f + 3 := ⟨fuel - 3, by omega⟩
  unfold run
  have hcell : readCell { prev := [], data := List.replicate TAPE_WIDTH 0, next := [] } 0 =
      some 0 := by decide
  rw [runLoop_next style _ (fuel + 2) _ _ ',' (by rfl) (by decide)
    (step_comma style _ _ 0 (by rfl) hcell)]
  rw [runLoop_next style _ (fuel + 1) _ _ '.' (by rfl) (by decide)
    (step_dot style _ _ (toChar b) (by rfl) (readCell_writeCell _ _ _ _ hcell))]
  rw [runLoop_halted style _ fuel _ (by rfl)]
  simp [getchar]

theorem putchar_toChar (b : Nat) (hb : b < 256) : putchar (toChar b) = b := by
  unfold putchar
  rw [toChar_mod]
  omega

/-- C13: for every input byte `b`, running `,.` in character mode on a fresh block with `b` as
the next byte of the input halts and has written exactly the byte `b`. -/
theorem C13_echo_byte (b : Nat) (hb : b < 256) (heap : Nat) (rest : List Nat) :
    ∃ s1, (∀ fuel, 3 ≤ fuel →
        run fuel (terminated [',', '.'])
          { prev := [], data := List.replicate TAPE_WIDTH 0, next := [] } .Char heap (b :: rest)
          [] = .halted s1) ∧
      s1.stdout = [b] ∧ s1.stdin = rest ∧
      readScript (terminated [',', '.']) s1.i = some NUL := by
  refine ⟨_, fun fuel hfuel => echo_run .Char b heap rest fuel hfuel, ?_, rfl, by rfl⟩
  simp [putchar_toChar b hb]

set_option maxRecDepth 100000 in
/-- C13 for the byte 65, and for the byte 200 that the cell holds as `-56`. -/
theorem C13_echo_byte_witness :
    run 3 (terminated [',', '.']) { prev := [], data := List.replicate 64 0, next := [] } .Char
        0 [200] [] =
      .halted { i := 2, tape := { prev := [], data := -56 :: List.replicate 63 0, next := [] },
                pos := 0, heap := 0, stdin := [], stdout := [200] } ∧
    ∃ s1, (∀ fuel, 3 ≤ fuel →
        run fuel (terminated [',', '.'])
          { prev := [], data := List.replicate TAPE_WIDTH 0, next := [] } .Char 0 [65] [] =
          .halted s1) ∧
      s1.stdout = [65] ∧ s1.stdin = [] ∧
      readScript (terminated [',', '.']) s1.i = some NUL :=
  ⟨by decide, C13_echo_byte 65 (by decide) 0 []⟩

theorem toString_toChar_high (b : Nat) (h1 : 128 ≤ b) (h2 : b < 256) :
    toString (toChar b) = "-" ++ toString (256 - b) := by
  have h : toChar b = Int.negSucc (255 - b) := by
    unfold toChar
    rw [Int.negSucc_eq]
    omega
  rw [h, show 256 - b = (255 - b) + 1 by omega]
  rfl

theorem toString_toChar_low (b : Nat) (h1 : b < 128) : toString (toChar b) = toString b := by
  have h : toChar b = Int.ofNat b := by
    unfold toChar
    simp only [Int.ofNat_eq_coe]
    omega
  rw [h]
  rfl

/-- C14, as the code has it: running `,.` in integer mode on a fresh block with `b` as the next
byte of the input halts, and has written the decimal numeral of `b` and one space when `b` is at
most 127, and a minus sign, the decimal numeral of `256 - b` and one space when `b` is 128 or
more, the cell then holding `b - 256`. In general `.` in integer mode writes the decimal numeral
of the value of the current cell and one space, and changes neither the tape nor the cursor. -/
theorem C14_integer_mode_prints_signed_value (b : Nat) (hb : b < 256) (heap : Nat)
    (rest : List Nat) :
    (∃ s1, (∀ fuel, 3 ≤ fuel →
        run fuel (terminated [',', '.'])
          { prev := [], data := List.replicate TAPE_WIDTH 0, next := [] } .Int heap (b :: rest)
          [] = .halted s1) ∧
      (b < 128 → s1.stdout = bytes (toString b ++ " ")) ∧
      (128 ≤ b → s1.stdout = bytes ("-" ++ toString (256 - b) ++ " ") ∧
        readCell s1.tape s1.pos = some ((b : Int) - 256))) ∧
    (∀ (script : List Char) (s : State) (v : Int), readScript script s.i = some '.' →
      readCell s.tape s.pos = some v →
      step .Int script s =
        .next { s with stdout := s.stdout ++ bytes (toString v ++ " "), i := s.i + 1 }) := by
  refine ⟨⟨_, fun fuel hfuel => echo_run .Int b heap rest fuel hfuel, ?_, ?_⟩, ?_⟩
  · intro h
    simp only [if_true]
    rw [printfInt_eq, toString_toChar_low b h]
  · intro h
    simp only [if_true]
    rw [printfInt_eq, toString_toChar_high b h hb]
    refine ⟨rfl, ?_⟩
    rw [readCell_writeCell _ _ 0 _ (by decide)]
    congr 1
    unfold toChar
    omega
  · intro script s v hc hv
    rw [step_dot .Int script s v hc hv, printfInt_eq]
    rfl

set_option maxRecDepth 100000 in
/-- C14 as amended for the byte 65, which is written as `65` and a space. -/
theorem C14_integer_mode_prints_signed_value_witness :
    run 3 (terminated [',', '.']) { prev := [], data := List.replicate 64 0, next := [] } .Int
        0 [65] [] =
      .halted { i := 2, tape := { prev := [], data := 65 :: List.replicate 63 0, next := [] },
                pos := 0, heap := 0, stdin := [], stdout := bytes "65 " } ∧
    ∃ s1, (∀ fuel, 3 ≤ fuel →
        run fuel (terminated [',', '.'])
          { prev := [], data := List.replicate TAPE_WIDTH 0, next := [] } .Int 0 [65] [] =
          .halted s1) ∧
      ((65 : Nat) < 128 → s1.stdout = bytes (toString 65 ++ " ")) ∧
      (128 ≤ (65 : Nat) → s1.stdout = bytes ("-" ++ toString (256 - 65) ++ " ") ∧
        readCell s1.tape s1.pos = some (((65 : Nat) : Int) - 256)) :=
  ⟨by decide, (C14_integer_mode_prints_signed_value 65 (by decide) 0 []).1⟩

set_option maxRecDepth 100000 in
/-- C14 as stated fails for the byte 200: the cell holds `-56`, and the output in integer mode
is `-56` and a space, not `200` and a space. -/
theorem C14_integer_mode_counterexample :
    run 3 (terminated [',', '.']) { prev := [], data := List.replicate 64 0, next := [] } .Int
        0 [200] [] =
      .halted { i := 2, tape := { prev := [], data := -56 :: List.replicate 63 0, next := [] },
                pos := 0, heap := 0, stdin := [], stdout := bytes "-56 " } ∧
    bytes "-56 " ≠ bytes "200 " ∧
    readFile (some fun _ => 'x') [',', '.'] = .ok (terminated [',', '.']) := by
  refine ⟨by decide, by decide, rfl⟩

/-! ### The dump of the tape -/

theorem rewind_spec (prev : List Block) :
    ∀ (data : Block) (next : List Block),
      (rewind prev data next).prev = [] ∧
        chain (rewind prev data next) = prev.reverse ++ data :: next := by
  induction prev with
  | nil =>
    intro data next
    exact ⟨rfl, rfl⟩
  | cons b more ih =>
    intro data next
    obtain ⟨h1, h2⟩ := ih b (data :: next)
    refine ⟨h1, ?_⟩
    simp only [rewind, h2, List.reverse_cons, List.append_assoc, List.singleton_append]

theorem printfCell_eq (v : Int) : printfCell v = bytes ("[" ++ toString v ++ "]") := by
  have h := printfInt_eq v
  unfold printfInt at h
  rw [bytes_append] at h
  have hsp : bytes " " = [(' ').toNat] := rfl
  rw [hsp] at h
  have h2 := List.append_cancel_right h
  unfold printfCell
  rw [bytes_append, bytes_append, ← h2]
  rfl

theorem printCells_spec (data : Block) :
    ∀ n i, i + n = data.length →
      printCells data n i = some ((data.drop i).flatMap printfCell) := by
  intro n
  induction n with
  | zero =>
    intro i hi
    simp only [Nat.add_zero] at hi
    simp [printCells, hi]
  | succ n ih =>
    intro i hi
    have hlt : i < data.length := by omega
    rw [List.drop_eq_getElem_cons hlt]
    simp only [printCells, List.getElem?_eq_getElem hlt, ih (i + 1) (by omega),
      List.flatMap_cons]

theorem printBlocks_spec (blocks : List Block) (h : ∀ b ∈ blocks, b.length = TAPE_WIDTH) :
    printBlocks blocks =
      some (blocks.flatMap fun data => data.flatMap printfCell ++ bytes "\n") := by
  induction blocks with
  | nil => rfl
  | cons data next ih =>
    have h1 : 0 + TAPE_WIDTH = data.length := by
      rw [h data (by simp)]
      simp
    have h2 := ih (fun b hb => h b (by simp [hb]))
    simp only [printBlocks, printCells_spec data TAPE_WIDTH 0 h1, h2, List.drop_zero,
      List.flatMap_cons, List.append_assoc]

theorem printTape_spec (tape : Tape) (h : BlocksWide tape) :
    printTape tape =
      some (bytes "START OF TAPE\n" ++
        (chain tape).flatMap (fun data => data.flatMap printfCell ++ bytes "\n") ++
        bytes "END OF TAPE\n") := by
  obtain ⟨h1, h2⟩ := rewind_spec tape.prev tape.data tape.next
  have h3 : (rewind tape.prev tape.data tape.next).data ::
      (rewind tape.prev tape.data tape.next).next = chain tape := by
    have : chain (rewind tape.prev tape.data tape.next) = chain tape := h2
    rw [← this]
    simp [chain, h1]
  simp only [printTape, h3, printBlocks_spec (chain tape) h]

theorem digitChar_not_newline (m : Nat) : (Nat.digitChar m).toNat ≠ 10 := by
  by_cases h : m < 16
  · interval_cases m <;> decide
  · have e : Nat.digitChar m = '*' := by
      unfold Nat.digitChar
      repeat (rw [if_neg (by omega)])
    rw [e]
    decide

theorem toDigitsCore_not_newline (fuel : Nat) :
    ∀ (n : Nat) (ds : List Char), (∀ c ∈ ds, c.toNat ≠ 10) →
      ∀ c ∈ Nat.toDigitsCore 10 fuel n ds, c.toNat ≠ 10 := by
  induction fuel with
  | zero =>
    intro n ds hds c hc
    exact hds c (by simpa [Nat.toDigitsCore] using hc)
  | succ fuel ih =>
    intro n ds hds c hc
    have hcons : ∀ c ∈ Nat.digitChar (n % 10) :: ds, c.toNat ≠ 10 := by
      intro c hc
      rcases List.mem_cons.mp hc with e | e
      · rw [e]
        exact digitChar_not_newline _
      · exact hds c e
    simp only [Nat.toDigitsCore] at hc
    split_ifs at hc
    · exact hcons c hc
    · exact ih _ _ hcons c hc

theorem printfCell_not_newline (v : Int) : (10 : Nat) ∉ printfCell v := by
  intro h
  simp only [printfCell, decimal, List.mem_append, List.mem_map, List.mem_singleton] at h
  rcases h with ((h | h) | ⟨c, hc, he⟩) | h
  · revert h
    decide
  · split_ifs at h
    · simp at h
    · simp at h
  · exact toDigitsCore_not_newline _ _ [] (by simp) c hc he
  · revert h
    decide

theorem count_newline_cells (data : Block) : (data.flatMap printfCell).count 10 = 0 := by
  rw [List.count_eq_zero]
  intro h
  obtain ⟨v, -, hv⟩ := List.mem_flatMap.mp h
  exact printfCell_not_newline v hv

theorem count_newline_lines (blocks : List Block) :
    (blocks.flatMap fun data => data.flatMap printfCell ++ bytes "\n").count 10 =
      blocks.length := by
  induction blocks with
  | nil => rfl
  | cons data next ih =>
    rw [List.flatMap_cons, List.count_append, List.count_append, ih, count_newline_cells]
    have : (bytes "\n").count 10 = 1 := by decide
    rw [this, List.length_cons]
    omega

/-- C19: for a tape whose blocks have 64 cells each, with the cursor in any of them, `printTape`
writes the line `START OF TAPE`, then one line for every block of the chain, from the leftmost
block to the rightmost, which holds the 64 cells of the block in the order of their offsets,
each as `[`, its decimal numeral, `]`, and then the line `END OF TAPE`. No cell puts a newline
into its line, and the text depends on the chain only, not on the block the cursor is in. -/
theorem C19_printTape_lists_every_block (tape : Tape) (h : BlocksWide tape) :
    printTape tape =
      some (bytes "START OF TAPE\n" ++
        (chain tape).flatMap (fun data =>
          data.flatMap (fun v => bytes ("[" ++ toString v ++ "]")) ++ bytes "\n") ++
        bytes "END OF TAPE\n") ∧
    (∀ data ∈ chain tape, data.length = 64 ∧
      (data.flatMap fun v => bytes ("[" ++ toString v ++ "]")).count 10 = 0) ∧
    ((chain tape).flatMap (fun data =>
      data.flatMap (fun v => bytes ("[" ++ toString v ++ "]")) ++ bytes "\n")).count 10 =
        (chain tape).length ∧
    (∀ other, chain other = chain tape → printTape other = printTape tape) := by
  have hf : (fun v : Int => bytes ("[" ++ toString v ++ "]")) = printfCell := by
    funext v
    rw [printfCell_eq]
  rw [hf]
  refine ⟨printTape_spec tape h, fun data hd => ⟨h data hd, count_newline_cells data⟩,
    count_newline_lines (chain tape), fun other ho => ?_⟩
  have h2 : BlocksWide other := by
    unfold BlocksWide
    rw [ho]
    exact h
  rw [printTape_spec tape h, printTape_spec other h2, ho]

set_option maxRecDepth 1000000 in
/-- C19 on a chain of two blocks with the cursor in the right one: the line of the left block
comes first. -/
theorem C19_printTape_lists_every_block_witness :
    BlocksWide { prev := [7 :: List.replicate 63 0], data := -1 :: List.replicate 63 0,
                 next := [] } ∧
    printTape { prev := [7 :: List.replicate 63 0], data := -1 :: List.replicate 63 0,
                next := [] } =
      some (bytes "START OF TAPE\n" ++
        (bytes "[7]" ++ (List.replicate 63 (bytes "[0]")).flatten ++ bytes "\n") ++
        (bytes "[-1]" ++ (List.replicate 63 (bytes "[0]")).flatten ++ bytes "\n") ++
        bytes "END OF TAPE\n") ∧
    (printTape { prev := [7 :: List.replicate 63 0], data := -1 :: List.replicate 63 0,
                 next := [] } =
      some (bytes "START OF TAPE\n" ++
        (chain { prev := [7 :: List.replicate 63 0], data := -1 :: List.replicate 63 0,
                 next := [] }).flatMap (fun data =>
          data.flatMap (fun v => bytes ("[" ++ toString v ++ "]")) ++ bytes "\n") ++
        bytes "END OF TAPE\n")) :=
  ⟨by decide, by decide,
    (C19_printTape_lists_every_block
      { prev := [7 :: List.replicate 63 0], data := -1 :: List.replicate 63 0, next := [] }
      (by decide)).1⟩

/-! ### A failed allocation -/

theorem seekTape_failed (heap : Nat) (tape : Tape) (pos : Int) (dir : Direction)
    (h : (seekTape heap tape pos dir).ok = false) :
    heap = 0 ∧ (seekTape heap tape pos dir).tape = tape := by
  cases dir with
  | Left =>
    by_cases h1 : pos - 1 < 0 ∧ tape.prev = []
    · cases heap with
      | zero => simp [seekTape, h1, makeTape]
      | succ n => simp [seekTape, h1, makeTape] at h
    · by_cases h2 : pos - 1 < 0
      · cases hp : tape.prev with
        | nil => exact absurd ⟨h2, hp⟩ h1
        | cons b more => simp [seekTape, h2, hp] at h
      · simp [seekTape, h2] at h
  | Right =>
    by_cases h1 : pos + 1 ≥ (TAPE_WIDTH : Int) ∧ tape.next = []
    · cases heap with
      | zero => simp [seekTape, h1, makeTape]
      | succ n => simp [seekTape, h1, makeTape] at h
    · by_cases h2 : pos + 1 ≥ (TAPE_WIDTH : Int)
      · cases hp : tape.next with
        | nil => exact absurd ⟨h2, hp⟩ h1
        | cons b more => simp [seekTape, h2, hp] at h
      · simp [seekTape, h2] at h

/-- A pass ends in the `return` of `run` only at a `>` or a `<` with an empty heap; the chain
of blocks and the instruction pointer are as before, and `ERROR_MEMORY` is written behind the
output so far. -/
theorem step_memory (style : PrintStyle) (script : List Char) (s s1 : State)
    (h : step style script s = .memory s1) :
    (readScript script s.i = some '>' ∨ readScript script s.i = some '<') ∧ s.heap = 0 ∧
      s1.i = s.i ∧ s1.tape = s.tape ∧ s1.stdin = s.stdin ∧
      s1.stdout = s.stdout ++ ERROR_MEMORY := by
  cases hr : readScript script s.i with
  | none =>
    rw [step_unreadable style script s hr] at h
    cases h
  | some c =>
    by_cases hc : c ∈ SYMBOLS
    · cases hcell : readCell s.tape s.pos with
      | none =>
        simp only [SYMBOLS, List.mem_cons, List.mem_singleton, List.not_mem_nil, or_false] at hc
        rcases hc with e | e | e | e | e | e | e | e <;> subst e
        · rw [step_right style script s hr] at h
          split_ifs at h with hok
          injection h with h
          subst h
          have := seekTape_failed _ _ _ _ (by simpa using hok)
          exact ⟨Or.inl rfl, this.1, rfl, rfl, rfl, rfl⟩
        · rw [step_left style script s hr] at h
          split_ifs at h with hok
          injection h with h
          subst h
          have := seekTape_failed _ _ _ _ (by simpa using hok)
          exact ⟨Or.inr rfl, this.1, rfl, rfl, rfl, rfl⟩
        all_goals
          rw [step_no_cell style script s _ hr (by decide) hcell] at h
          cases h
      | some v =>
        simp only [SYMBOLS, List.mem_cons, List.mem_singleton, List.not_mem_nil, or_false] at hc
        rcases hc with e | e | e | e | e | e | e | e <;> subst e
        · rw [step_right style script s hr] at h
          split_ifs at h with hok
          injection h with h
          subst h
          have := seekTape_failed _ _ _ _ (by simpa using hok)
          exact ⟨Or.inl rfl, this.1, rfl, rfl, rfl, rfl⟩
        · rw [step_left style script s hr] at h
          split_ifs at h with hok
          injection h with h
          subst h
          have := seekTape_failed _ _ _ _ (by simpa using hok)
          exact ⟨Or.inr rfl, this.1, rfl, rfl, rfl, rfl⟩
        · rw [step_plus style script s v hr hcell] at h
          cases h
        · rw [step_minus style script s v hr hcell] at h
          cases h
        · rw [step_open style script s v hr hcell] at h
          split_ifs at h
          split at h <;> cases h
        · rw [step_close style script s v hr hcell] at h
          split_ifs at h
          split at h <;> cases h
        · rw [step_dot style script s v hr hcell] at h
          cases h
        · rw [step_comma style script s v hr hcell] at h
          cases h
    · rw [step_comment style script s c hr hc] at h
      cases h

/-- A run that ends in the `return` of `run` has passed through a state in which the next
instruction could not get its block, has executed nothing after it, and ends in the same way
however many more passes it is given. -/
theorem runLoop_aborted (style : PrintStyle) (script : List Char) :
    ∀ fuel s0 s, runLoop style script fuel s0 = .aborted s →
      ∃ n s1, n < fuel ∧ runLoop style script n s0 = .running s1 ∧
        step style script s1 = .memory s ∧
        ∀ more, fuel ≤ more → runLoop style script more s0 = .aborted s := by
  intro fuel
  induction fuel with
  | zero =>
    intro s0 s h
    simp [runLoop] at h
  | succ fuel ih =>
    intro s0 s h
    cases hr : readScript script s0.i with
    | none => simp [runLoop, hr] at h
    | some c =>
      by_cases hc : c = NUL
      · simp [runLoop, hr, hc] at h
      · cases hs : step style script s0 with
        | fault => simp [runLoop, hr, hc, hs] at h
        | memory s2 =>
          simp only [runLoop, hr, hc, hs, if_false] at h
          injection h with h
          subst h
          refine ⟨0, s0, by omega, rfl, hs, fun more hmore => ?_⟩
          obtain ⟨more, rfl⟩ : ∃ m, more = m + 1 := ⟨more - 1, by omega⟩
          simp only [runLoop, hr, hc, hs, if_false]
        | next s2 =>
          simp only [runLoop, hr, hc, hs, if_false] at h
          obtain ⟨n, s1, hn, hrun, hstep, hmore⟩ := ih s2 s h
          refine ⟨n + 1, s1, by omega, ?_, hstep, fun more hm => ?_⟩
          · simp only [runLoop, hr, hc, hs, if_false]
            exact hrun
          · obtain ⟨more, rfl⟩ : ∃ m, more = m + 1 := ⟨more - 1, by omega⟩
            simp only [runLoop, hr, hc, hs, if_false]
            exact hmore more (by omega)

theorem blocksWide_of_valid (tape : Tape) (pos : Int) (h : CursorValid tape pos) :
    BlocksWide tape := by
  obtain ⟨-, -, hd, hp, hn⟩ := h
  intro b hb
  simp only [chain, List.mem_append, List.mem_reverse, List.mem_cons] at hb
  rcases hb with hb | hb | hb
  · exact hp b hb
  · rw [hb]
    exact hd
  · exact hn b hb

theorem makeTape_valid (h0 heap : Nat) (tape : Tape) (h : makeTape h0 = (some tape, heap)) :
    CursorValid tape 0 := by
  cases h0 with
  | zero => simp [makeTape] at h
  | succ n =>
    simp only [makeTape, Prod.mk.injEq, Option.some.injEq] at h
    rw [← h.1]
    simp [CursorValid, TAPE_WIDTH]

/-- C15, as the code has it: when a run ends because `>` or `<` could not get a block, the
loop has executed nothing after that instruction (the instruction pointer and the chain of blocks
are those in front of it, and more passes change nothing), and the output written before it is
kept, followed by `ERROR_MEMORY`. The function `main` then writes the newline and, when the dump
is enabled, the dump of the tape as it was at the failed instruction. -/
theorem C15_failed_allocation_stops_run_not_dump (fuel : Nat) (m_print_int m_debug : Bool)
    (junk : Nat → Char) (buffer script : List Char) (h0 heap : Nat) (tape : Tape)
    (stdin : List Nat) (s : State)
    (hload : readFile (some junk) buffer = .ok script)
    (htape : makeTape h0 = (some tape, heap))
    (habort : run fuel script tape (if m_print_int then .Int else .Char) heap stdin [] =
      .aborted s) :
    ∃ n s1 dump, n < fuel ∧
      run n script tape (if m_print_int then .Int else .Char) heap stdin [] = .running s1 ∧
      (readScript script s1.i = some '>' ∨ readScript script s1.i = some '<') ∧ s1.heap = 0 ∧
      s.i = s1.i ∧ s.tape = s1.tape ∧ s.stdout = s1.stdout ++ ERROR_MEMORY ∧
      (∀ more, fuel ≤ more →
        run more script tape (if m_print_int then .Int else .Char) heap stdin [] = .aborted s) ∧
      printTape s.tape = some dump ∧
      main fuel m_print_int m_debug (some junk) buffer h0 stdin =
        .done (s1.stdout ++ ERROR_MEMORY ++ bytes "\n" ++ (if m_debug then dump else [])) := by
  obtain ⟨n, s1, hn, hrun, hstep, hmore⟩ := runLoop_aborted _ script fuel _ s habort
  obtain ⟨hc, hheap, hi, ht, -, hout⟩ := step_memory _ script s1 s hstep
  have hv : CursorValid s1.tape s1.pos :=
    runLoop_invariant _ script (fun s => CursorValid s.tape s.pos)
      (fun a b _ ha _ _ hs => step_valid _ script a b ha hs) n _ s1
      (makeTape_valid h0 heap tape htape) (Or.inl hrun)
  have hw : BlocksWide s.tape := by
    rw [ht]
    exact blocksWide_of_valid _ _ hv
  have hdump := printTape_spec s.tape hw
  refine ⟨n, s1, _, hn, hrun, hc, hheap, hi, ht, hout, hmore, hdump, ?_⟩
  simp only [main, hload, htape, habort, hdump, hout]
  cases m_debug <;> simp

set_option maxRecDepth 1000000 in
/-- C15 as amended on the script `+.<` with a heap of one block, the one `main` takes for the
first block: the `<` fails, and the output is the byte 1, `ERROR_MEMORY`, the newline and the
dump of the one block. -/
theorem C15_failed_allocation_stops_run_not_dump_witness :
    ∃ n s1 dump, n < 5 ∧
      run n ['+', '.', '<', NUL] { prev := [], data := List.replicate 64 0, next := [] }
        (if false then .Int else .Char) 0 [] [] = .running s1 ∧
      (readScript ['+', '.', '<', NUL] s1.i = some '>' ∨
        readScript ['+', '.', '<', NUL] s1.i = some '<') ∧ s1.heap = 0 ∧
      (2 : Int) = s1.i ∧
      ({ prev := [], data := 1 :: List.replicate 63 0, next := [] } : Tape) = s1.tape ∧
      [1] ++ ERROR_MEMORY = s1.stdout ++ ERROR_MEMORY ∧
      (∀ more, 5 ≤ more →
        run more ['+', '.', '<', NUL] { prev := [], data := List.replicate 64 0, next := [] }
          (if false then .Int else .Char) 0 [] [] =
        .aborted { i := 2, tape := { prev := [], data := 1 :: List.replicate 63 0, next := [] },
                   pos := -1, heap := 0, stdin := [], stdout := [1] ++ ERROR_MEMORY }) ∧
      printTape { prev := [], data := 1 :: List.replicate 63 0, next := [] } = some dump ∧
      main 5 false true (some fun _ => 'x') ['+', '.', '<'] 1 [] =
        .done (s1.stdout ++ ERROR_MEMORY ++ bytes "\n" ++ (if true then dump else [])) :=
  C15_failed_allocation_stops_run_not_dump 5 false true (fun _ => 'x') ['+', '.', '<']
    ['+', '.', '<', NUL] 1 0 { prev := [], data := List.replicate 64 0, next := [] } []
    { i := 2, tape := { prev := [], data := 1 :: List.replicate 63 0, next := [] },
      pos := -1, heap := 0, stdin := [], stdout := [1] ++ ERROR_MEMORY }
    rfl (by decide) (by decide)

set_option maxRecDepth 1000000 in
/-- C15 as stated fails on the script `+.<` with the dump enabled and a heap of one block: the
run ends at the `<`, and `main` still writes the dump, from `START OF TAPE` to `END OF TAPE`. -/
theorem C15_dump_after_abort_counterexample :
    readFile (some fun _ => 'x') ['+', '.', '<'] = .ok ['+', '.', '<', NUL] ∧
    makeTape 1 = (some { prev := [], data := List.replicate 64 0, next := [] }, 0) ∧
    run 5 ['+', '.', '<', NUL] { prev := [], data := List.replicate 64 0, next := [] } .Char 0
        [] [] =
      .aborted { i := 2, tape := { prev := [], data := 1 :: List.replicate 63 0, next := [] },
                 pos := -1, heap := 0, stdin := [], stdout := [1] ++ ERROR_MEMORY } ∧
    main 5 false true (some fun _ => 'x') ['+', '.', '<'] 1 [] =
      .done ([1] ++ ERROR_MEMORY ++ bytes "\n" ++
        (bytes "START OF TAPE\n" ++ bytes "[1]" ++ (List.replicate 63 (bytes "[0]")).flatten ++
          bytes "\n" ++ bytes "END OF TAPE\n")) ∧
    main 5 false true (some fun _ => 'x') ['+', '.', '<'] 1 [] ≠
      .done ([1] ++ ERROR_MEMORY ++ bytes "\n") := by
  refine ⟨rfl, by decide, by decide, by decide, by decide⟩

/-! ### The script is only read inside its array -/

theorem scanForward_ge (ahead : List Char) :
    ∀ (d i r : Int), scanForward ahead d i = some r → i ≤ r := by
  induction ahead with
  | nil =>
    intro d i r h
    simp only [scanForward] at h
    split_ifs at h
    injection h with h
    omega
  | cons c rest ih =>
    intro d i r h
    simp only [scanForward] at h
    split_ifs at h
    · have := ih _ _ _ h
      omega
    · have := ih _ _ _ h
      omega
    · have := ih _ _ _ h
      omega
    · injection h with h
      omega

theorem scanBackward_le (behind : List Char) :
    ∀ (d i r : Int), scanBackward behind d i = some r → r ≤ i := by
  induction behind with
  | nil =>
    intro d i r h
    simp only [scanBackward] at h
    split_ifs at h
    injection h with h
    omega
  | cons c rest ih =>
    intro d i r h
    simp only [scanBackward] at h
    split_ifs at h
    · have := ih _ _ _ h
      omega
    · have := ih _ _ _ h
      omega
    · have := ih _ _ _ h
      omega
    · injection h with h
      omega

/-- A forward scan that ends at `r` has read the indices from its start up to `r - 1` only. -/
theorem scanForwardReads_bounds (ahead : List Char) :
    ∀ (d i r : Int), scanForward ahead d i = some r →
      ∀ j ∈ scanForwardReads ahead d i, i ≤ j ∧ j < r := by
  induction ahead with
  | nil =>
    intro d i r h j hj
    simp only [scanForward] at h
    simp only [scanForwardReads] at hj
    split_ifs at h hj
    simp at hj
  | cons c rest ih =>
    intro d i r h j hj
    simp only [scanForward] at h
    simp only [scanForwardReads] at hj
    split_ifs at h hj
    all_goals first
      | (rcases List.mem_cons.mp hj with e | e
         · have := scanForward_ge _ _ _ _ h
           omega
         · have := ih _ _ _ h j e
           omega)
      | simp at hj

/-- A backward scan that ends at `r` has read the indices from its start down to `r + 1`
only. -/
theorem scanBackwardReads_bounds (behind : List Char) :
    ∀ (d i r : Int), scanBackward behind d i = some r →
      ∀ j ∈ scanBackwardReads behind d i, r < j ∧ j ≤ i := by
  induction behind with
  | nil =>
    intro d i r h j hj
    simp only [scanBackward] at h
    simp only [scanBackwardReads] at hj
    split_ifs at h hj
    simp at hj
  | cons c rest ih =>
    intro d i r h j hj
    simp only [scanBackward] at h
    simp only [scanBackwardReads] at hj
    split_ifs at h hj
    all_goals first
      | (rcases List.mem_cons.mp hj with e | e
         · have := scanBackward_le _ _ _ _ h
           omega
         · have := ih _ _ _ h j e
           omega)
      | simp at hj

/-- In a balanced script, a pass that starts inside the instructions either faults on the tape
or leaves the instruction pointer inside the array, the end sentinel included; with a valid
cursor it does not fault. -/
theorem step_balanced (body : List Char) (hb : Balanced body) (style : PrintStyle) (s : State)
    (h0 : 0 ≤ s.i) (h1 : s.i < body.length) :
    (∀ s1, step style (terminated body) s = .next s1 → 0 ≤ s1.i ∧ s1.i ≤ body.length) ∧
    (CursorValid s.tape s.pos → step style (terminated body) s ≠ .fault) := by
  obtain ⟨i, tape, pos, heap, stdin, stdout⟩ := s
  simp only at h0 h1
  obtain ⟨k, rfl⟩ : ∃ k : Nat, i = k := ⟨i.toNat, by omega⟩
  have hk : k < body.length := by omega
  have hget : body[k]? = some body[k] := List.getElem?_eq_getElem hk
  have hr := readScript_terminated body k _ hget
  generalize body[k] = c at hget hr
  have hnone : readCell tape pos = none → ¬ CursorValid tape pos := by
    intro hv hcv
    obtain ⟨v, e⟩ := readCell_valid tape pos hcv
    rw [hv] at e
    cases e
  by_cases hc : c ∈ SYMBOLS
  · simp only [SYMBOLS, List.mem_cons, List.mem_singleton, List.not_mem_nil, or_false] at hc
    rcases hc with e | e | e | e | e | e | e | e <;> subst e
    · rw [step_right style _ _ hr]
      refine ⟨fun s1 h => ?_, fun _ => ?_⟩
      · split_ifs at h
        injection h with h
        subst h
        simp only
        omega
      · split_ifs <;> simp
    · rw [step_left style _ _ hr]
      refine ⟨fun s1 h => ?_, fun _ => ?_⟩
      · split_ifs at h
        injection h with h
        subst h
        simp only
        omega
      · split_ifs <;> simp
    · cases hv : readCell tape pos with
      | none =>
        rw [step_no_cell style _ _ _ hr (by decide) hv]
        exact ⟨fun s1 h => (by cases h), fun hcv => absurd hcv (hnone hv)⟩
      | some v =>
        rw [step_plus style _ _ v hr hv]
        refine ⟨fun s1 h => ?_, fun _ => by simp⟩
        injection h with h
        subst h
        simp only
        omega
    · cases hv : readCell tape pos with
      | none =>
        rw [step_no_cell style _ _ _ hr (by decide) hv]
        exact ⟨fun s1 h => (by cases h), fun hcv => absurd hcv (hnone hv)⟩
      | some v =>
        rw [step_minus style _ _ v hr hv]
        refine ⟨fun s1 h => ?_, fun _ => by simp⟩
        injection h with h
        subst h
        simp only
        omega
    · cases hv : readCell tape pos with
      | none =>
        rw [step_no_cell style _ _ _ hr (by decide) hv]
        exact ⟨fun s1 h => (by cases h), fun hcv => absurd hcv (hnone hv)⟩
      | some v =>
        obtain ⟨m, hm, hscan⟩ := scanForward_balanced body [NUL] hb k hget ((k : Int) + 1)
        have hmlt : m < body.length := (List.getElem?_eq_some_iff.mp hm.2.2.1).1
        have hkm : k < m := hm.1
        rw [step_open style _ _ v hr hv]
        simp only [drop_terminated body k hk, hscan]
        refine ⟨fun s1 h => ?_, fun _ => by split_ifs <;> simp⟩
        split_ifs at h
        · injection h with h
          subst h
          simp only
          omega
        · injection h with h
          subst h
          simp only
          omega
    · cases hv : readCell tape pos with
      | none =>
        rw [step_no_cell style _ _ _ hr (by decide) hv]
        exact ⟨fun s1 h => (by cases h), fun hcv => absurd hcv (hnone hv)⟩
      | some v =>
        obtain ⟨m, hm, hscan⟩ := scanBackward_balanced body hb k hget ((k : Int) - 1)
        have hkm : m < k := hm.1
        rw [step_close style _ _ v hr hv]
        simp only [take_terminated body k hk, hscan]
        refine ⟨fun s1 h => ?_, fun _ => by split_ifs <;> simp⟩
        split_ifs at h
        · injection h with h
          subst h
          simp only
          omega
        · injection h with h
          subst h
          simp only
          omega
    · cases hv : readCell tape pos with
      | none =>
        rw [step_no_cell style _ _ _ hr (by decide) hv]
        exact ⟨fun s1 h => (by cases h), fun hcv => absurd hcv (hnone hv)⟩
      | some v =>
        rw [step_dot style _ _ v hr hv]
        refine ⟨fun s1 h => ?_, fun _ => by simp⟩
        injection h with h
        subst h
        simp only
        omega
    · cases hv : readCell tape pos with
      | none =>
        rw [step_no_cell style _ _ _ hr (by decide) hv]
        exact ⟨fun s1 h => (by cases h), fun hcv => absurd hcv (hnone hv)⟩
      | some v =>
        rw [step_comma style _ _ v hr hv]
        refine ⟨fun s1 h => ?_, fun _ => by simp⟩
        injection h with h
        subst h
        simp only
        omega
  · rw [step_comment style _ _ c hr hc]
    refine ⟨fun s1 h => ?_, fun _ => by simp⟩
    injection h with h
    subst h
    simp only
    omega

theorem readScript_sentinel (body : List Char) :
    readScript (terminated body) (body.length : Int) = some NUL := by
  simp [readScript, terminated]

theorem readScript_inside (body : List Char) (i : Int) (h0 : 0 ≤ i) (h1 : i ≤ body.length) :
    ∃ c, readScript (terminated body) i = some c := by
  by_cases h : i = body.length
  · rw [h]
    exact ⟨NUL, readScript_sentinel body⟩
  · obtain ⟨k, rfl⟩ : ∃ k : Nat, i = k := ⟨i.toNat, by omega⟩
    have hk : k < body.length := by omega
    exact ⟨body[k], readScript_terminated body k _ (List.getElem?_eq_getElem hk)⟩

theorem pointer_inside (body : List Char) (i : Int) (c : Char) (h1 : i ≤ body.length)
    (hr : readScript (terminated body) i = some c) (hc : c ≠ NUL) : i < body.length := by
  by_contra hge
  have : i = body.length := by omega
  rw [this, readScript_sentinel] at hr
  injection hr with hr
  exact hc hr.symm

/-- On a balanced script and a tape with a valid cursor, the loop of `run` never reads outside
an array. -/
theorem runLoop_no_fault (body : List Char) (hb : Balanced body) (style : PrintStyle) :
    ∀ (fuel : Nat) (s : State), 0 ≤ s.i → s.i ≤ (body.length : Int) →
      CursorValid s.tape s.pos →
      runLoop style (terminated body) fuel s ≠ .fault := by
  intro fuel
  induction fuel with
  | zero =>
    intro s _ _ _
    simp [runLoop]
  | succ fuel ih =>
    intro s h0 h1 hv
    obtain ⟨c, hr⟩ := readScript_inside body s.i h0 h1
    by_cases hc : c = NUL
    · simp [runLoop, hr, hc]
    · have hlt := pointer_inside body s.i c h1 hr hc
      obtain ⟨hptr, hnf⟩ := step_balanced body hb style s h0 hlt
      cases hs : step style (terminated body) s with
      | fault => exact absurd hs (hnf hv)
      | memory s1 => simp [runLoop, hr, hc, hs]
      | next s1 =>
        simp only [runLoop, hr, hc, hs, if_false]
        exact ih s1 (hptr s1 hs).1 (hptr s1 hs).2 (step_valid style _ s s1 hv hs)

/-- C16: on a balanced script of `n` instructions, whatever the tape and the input, the
instruction pointer is between 0 and `n` at the start of every pass of the loop of `run` and when
the loop halts, so that the read `script[i]` is inside the array; the forward scan of a `[` ends
and reads only indices between 0 and `n - 1`, never the end sentinel, and so does the backward
scan of a `]`, which never reads below index 0; and with a valid cursor no pass reads outside an
array at all. -/
theorem C16_script_reads_in_bounds (body : List Char) (hb : Balanced body) (style : PrintStyle)
    (s0 : State) (h0 : s0.i = 0) :
    (∀ fuel s, (runLoop style (terminated body) fuel s0 = .running s ∨
        runLoop style (terminated body) fuel s0 = .halted s) →
      0 ≤ s.i ∧ s.i ≤ body.length ∧ ∃ c, readScript (terminated body) s.i = some c) ∧
    (CursorValid s0.tape s0.pos → ∀ fuel, runLoop style (terminated body) fuel s0 ≠ .fault) ∧
    (∀ i : Nat, body[i]? = some '[' →
      (∃ r, scanForward ((terminated body).drop ((i : Int) + 1).toNat) 1 ((i : Int) + 1) =
        some r) ∧
      ∀ j ∈ scanForwardReads ((terminated body).drop ((i : Int) + 1).toNat) 1 ((i : Int) + 1),
        0 ≤ j ∧ j < body.length) ∧
    (∀ i : Nat, body[i]? = some ']' →
      (∃ r, scanBackward ((terminated body).take (i : Int).toNat).reverse 1 ((i : Int) - 1) =
        some r) ∧
      ∀ j ∈ scanBackwardReads ((terminated body).take (i : Int).toNat).reverse 1 ((i : Int) - 1),
        0 ≤ j ∧ j < body.length) := by
  refine ⟨fun fuel s h => ?_, fun hv fuel => ?_, fun i hi => ?_, fun i hi => ?_⟩
  · have hP : 0 ≤ s.i ∧ s.i ≤ body.length :=
      runLoop_invariant style (terminated body) (fun s => 0 ≤ s.i ∧ s.i ≤ (body.length : Int))
        (fun a b c ha hr hc hs =>
          (step_balanced body hb style a ha.1 (pointer_inside body a.i c ha.2 hr hc)).1 b hs)
        fuel s0 s (by
          show 0 ≤ s0.i ∧ s0.i ≤ (body.length : Int)
          rw [h0]
          exact ⟨le_rfl, by omega⟩) h
    exact ⟨hP.1, hP.2, readScript_inside body s.i hP.1 hP.2⟩
  · exact runLoop_no_fault body hb style fuel s0 (by omega) (by omega) hv
  · have hlt : i < body.length := (List.getElem?_eq_some_iff.mp hi).1
    obtain ⟨m, hm, hscan⟩ := scanForward_balanced body [NUL] hb i hi ((i : Int) + 1)
    have hmlt : m < body.length := (List.getElem?_eq_some_iff.mp hm.2.2.1).1
    rw [drop_terminated body i hlt]
    refine ⟨⟨_, hscan⟩, fun j hj => ?_⟩
    have := scanForwardReads_bounds _ _ _ _ hscan j hj
    have hkm : i < m := hm.1
    omega
  · have hlt : i < body.length := (List.getElem?_eq_some_iff.mp hi).1
    obtain ⟨k, hk, hscan⟩ := scanBackward_balanced body hb i hi ((i : Int) - 1)
    rw [take_terminated body i hlt]
    refine ⟨⟨_, hscan⟩, fun j hj => ?_⟩
    have := scanBackwardReads_bounds _ _ _ _ hscan j hj
    have hkm : k < i := hk.1
    omega

set_option maxRecDepth 100000 in
/-- C16 on the script `+[-]`: the forward scan of the `[` at index 1 reads the indices 2 and 3,
and the backward scan of the `]` at index 3 reads the indices 2 and 1. -/
theorem C16_script_reads_in_bounds_witness :
    Balanced ['+', '[', '-', ']'] ∧
    scanForwardReads ((terminated ['+', '[', '-', ']']).drop 2) 1 2 = [2, 3] ∧
    scanBackwardReads ((terminated ['+', '[', '-', ']']).take 3).reverse 1 2 = [2, 1] ∧
    ∀ fuel s, (runLoop .Char (terminated ['+', '[', '-', ']']) fuel
          { i := 0, tape := { prev := [], data := List.replicate 64 0, next := [] }, pos := 0,
            heap := 0, stdin := [], stdout := [] } = .running s ∨
        runLoop .Char (terminated ['+', '[', '-', ']']) fuel
          { i := 0, tape := { prev := [], data := List.replicate 64 0, next := [] }, pos := 0,
            heap := 0, stdin := [], stdout := [] } = .halted s) →
      0 ≤ s.i ∧ s.i ≤ (['+', '[', '-', ']'] : List Char).length ∧
        ∃ c, readScript (terminated ['+', '[', '-', ']']) s.i = some c :=
  ⟨by decide, by decide, by decide,
    (C16_script_reads_in_bounds ['+', '[', '-', ']'] (by decide) .Char
      { i := 0, tape := { prev := [], data := List.replicate 64 0, next := [] }, pos := 0,
        heap := 0, stdin := [], stdout := [] } rfl).1⟩

/-! ### The check behind the counting loop -/

/-- The counting loop runs to its end only on a text whose depth is never negative. -/
theorem countLoop_ok_neverNegative (src : List Char) (k : Counters)
    (h : countLoop src Counters.init = .ok k) : NeverNegative src := by
  by_contra hneg
  rw [neverNegative_iff_depth] at hneg
  push_neg at hneg
  obtain ⟨n, hn, hlt⟩ := hneg
  obtain ⟨p, -, -, -, herr⟩ := countLoop_error src Counters.init (by decide)
    ⟨n, hn, by simpa [Counters.init] using hlt⟩
  rw [herr] at h
  cases h

/-- C20: when the counting loop of the loader has run to its end, the depth counter is not
negative. So when the check behind the loop finds it nonzero it is positive, the line reported
is `line_last_open` and never `line_last_close`, and that line is the line of the last `[` of the
source. -/
theorem C20_post_scan_error_reports_last_open (heap : Option (Nat → Char)) (src : List Char)
    (k : Counters) (h : countLoop src Counters.init = .ok k) :
    0 ≤ k.open_loops ∧ k.open_loops = depth src ∧
      (k.open_loops ≠ 0 →
        0 < k.open_loops ∧
        (if k.open_loops > 0 then k.line_last_open else k.line_last_close) = k.line_last_open ∧
        readFile heap src = .error (.brackets k.line_last_open) ∧
        ∃ p, LastOpen src p ∧ k.line_last_open = lineOf src p) := by
  have hnn := countLoop_ok_neverNegative src k h
  have hd := (neverNegative_iff_depth src).mp hnn
  obtain ⟨k1, hrun, -, -, hopen, hlast, -⟩ := countLoop_ok src Counters.init (by
    intro n hn
    have := hd n hn
    simpa [Counters.init] using this)
  rw [h] at hrun
  injection hrun with hrun
  subst hrun
  have hopen1 : k.open_loops = depth src := by
    rw [hopen]
    simp [Counters.init]
  have h0 : 0 ≤ depth src := by
    have := hd src.length le_rfl
    rwa [List.take_length] at this
  refine ⟨by omega, hopen1, fun hne => ?_⟩
  have hpos : k.open_loops > 0 := by omega
  have hmem : '[' ∈ src := by
    by_contra hno
    have : src.count '[' = 0 := List.count_eq_zero.mpr hno
    unfold depth at hopen1
    omega
  obtain ⟨p, hp⟩ := lastOpen_exists src hmem
  have hline : k.line_last_open = lineOf src p := by
    rw [hlast p hp, lineOf]
    rfl
  refine ⟨hpos, if_pos hpos, ?_, p, hp, hline⟩
  simp only [readFile, h]
  rw [if_pos hne, if_pos hpos]

/-- C20 on the text `[` newline `[]]` newline `[`: the depth is back to 0 after the fourth
bracket and 1 at the end, the last `]` is on line 2 and the last `[` on line 3, and line 3 is
reported. -/
theorem C20_post_scan_error_reports_last_open_witness :
    countLoop ['[', '\n', '[', ']', ']', '\n', '['] Counters.init =
      .ok { inst_count := 5, line := 3, line_last_open := 3, line_last_close := 2,
            open_loops := 1 } ∧
    readFile none ['[', '\n', '[', ']', ']', '\n', '['] = .error (.brackets 3) ∧
    ((0 : Int) ≤ 1 ∧ (1 : Int) = depth ['[', '\n', '[', ']', ']', '\n', '['] ∧
      ((1 : Int) ≠ 0 →
        (0 : Int) < 1 ∧
        (if (1 : Int) > 0 then (3 : Int) else 2) = 3 ∧
        readFile none ['[', '\n', '[', ']', ']', '\n', '['] = .error (.brackets 3) ∧
        ∃ p, LastOpen ['[', '\n', '[', ']', ']', '\n', '['] p ∧
          (3 : Int) = lineOf ['[', '\n', '[', ']', ']', '\n', '['] p)) :=
  ⟨rfl, rfl,
    C20_post_scan_error_reports_last_open none ['[', '\n', '[', ']', ']', '\n', '[']
      { inst_count := 5, line := 3, line_last_open := 3, line_last_close := 2, open_loops := 1 }
      rfl⟩

/-! ### The tape as an unbounded array -/

theorem contents_of_chain (origin : Nat) (t1 t2 : Tape) (h : chain t1 = chain t2) (a : Int) :
    contents origin t1 a = contents origin t2 a := by
  simp only [contents, h]

theorem zeros_getD (k : Nat) : ((List.replicate TAPE_WIDTH (0 : Int))[k]?).getD 0 = 0 := by
  by_cases h : k < TAPE_WIDTH
  · simp [List.getElem?_replicate, h]
  · simp [List.getElem?_replicate, h]

/-- A fresh block at the left end of the chain, with the starting block one further to the
right, leaves the array as it was. -/
theorem contents_grow_left (origin : Nat) (t1 t2 : Tape)
    (h : chain t1 = List.replicate TAPE_WIDTH 0 :: chain t2) (a : Int) :
    contents (origin + 1) t1 a = contents origin t2 a := by
  simp only [contents, h]
  by_cases h0 : 0 ≤ (origin : Int) + a / (TAPE_WIDTH : Int)
  · have h1 : 0 ≤ ((origin + 1 : Nat) : Int) + a / (TAPE_WIDTH : Int) := by
      push_cast
      omega
    have h2 : (((origin + 1 : Nat) : Int) + a / (TAPE_WIDTH : Int)).toNat =
        ((origin : Int) + a / (TAPE_WIDTH : Int)).toNat + 1 := by
      push_cast
      omega
    rw [if_pos h0, if_pos h1, h2, List.getElem?_cons_succ]
  · rw [if_neg h0]
    by_cases h1 : 0 ≤ ((origin + 1 : Nat) : Int) + a / (TAPE_WIDTH : Int)
    · have h2 : (((origin + 1 : Nat) : Int) + a / (TAPE_WIDTH : Int)).toNat = 0 := by
        push_cast at h1 ⊢
        omega
      rw [if_pos h1, h2]
      simp only [List.getElem?_cons_zero]
      exact zeros_getD _
    · rw [if_neg h1]

/-- A fresh block at the right end of the chain leaves the array as it was. -/
theorem contents_grow_right (origin : Nat) (t1 t2 : Tape)
    (h : chain t1 = chain t2 ++ [List.replicate TAPE_WIDTH 0]) (a : Int) :
    contents origin t1 a = contents origin t2 a := by
  simp only [contents, h]
  by_cases h0 : 0 ≤ (origin : Int) + a / (TAPE_WIDTH : Int)
  · simp only [if_pos h0]
    generalize ((origin : Int) + a / (TAPE_WIDTH : Int)).toNat = n
    by_cases hn : n < (chain t2).length
    · rw [List.getElem?_append_left hn]
    · by_cases hn1 : n = (chain t2).length
      · subst hn1
        simp only [List.getElem?_concat_length, List.getElem?_eq_none (le_refl _)]
        exact zeros_getD _
      · have e1 : (chain t2 ++ [List.replicate TAPE_WIDTH 0])[n]? = none := by
          apply List.getElem?_eq_none
          simp
          omega
        have e2 : (chain t2)[n]? = none := List.getElem?_eq_none (by omega)
        rw [e1, e2]
  · simp only [if_neg h0]

/-- With a valid cursor, the cell under the cursor is the cell of the array at the address of
the cursor. -/
theorem readCell_eq_contents (origin : Nat) (tape : Tape) (pos : Int) (hv : CursorValid tape pos) :
    readCell tape pos = some (contents origin tape (address origin tape pos)) := by
  obtain ⟨h0, h1, hd, -, -⟩ := hv
  simp only [TAPE_WIDTH] at h1 hd
  simp only [Nat.cast_ofNat] at h1
  have hdiv : (64 * ((tape.prev.length : Int) - (origin : Int)) + pos) / 64 =
      (tape.prev.length : Int) - origin := by omega
  have hmod : (64 * ((tape.prev.length : Int) - (origin : Int)) + pos) % 64 = pos := by omega
  have hblock : ((origin : Int) + ((tape.prev.length : Int) - origin)).toNat =
      tape.prev.reverse.length := by
    simp
  have hlt : pos.toNat < tape.data.length := by omega
  simp only [contents, address, TAPE_WIDTH, Nat.cast_ofNat, hdiv, hmod]
  rw [if_pos (by omega), hblock]
  simp only [chain, List.getElem?_append_right (le_refl _), Nat.sub_self,
    List.getElem?_cons_zero, readCell, h0, if_true, List.getElem?_eq_getElem hlt,
    Option.getD_some]

/-- The three ways in which a `seekTape` to the left succeeds. -/
theorem seekTape_left_cases (heap : Nat) (tape : Tape) (pos : Int) (h0 : 0 ≤ pos)
    (hok : (seekTape heap tape pos .Left).ok = true) :
    (0 < pos ∧ (seekTape heap tape pos .Left).tape = tape ∧
      (seekTape heap tape pos .Left).pos = pos - 1) ∨
    (pos = 0 ∧ tape.prev ≠ [] ∧ chain (seekTape heap tape pos .Left).tape = chain tape ∧
      (seekTape heap tape pos .Left).tape.prev.length + 1 = tape.prev.length ∧
      (seekTape heap tape pos .Left).pos = 63) ∨
    (pos = 0 ∧ tape.prev = [] ∧
      (seekTape heap tape pos .Left).tape =
        { prev := [], data := List.replicate TAPE_WIDTH 0, next := tape.data :: tape.next } ∧
      (seekTape heap tape pos .Left).pos = 63) := by
  obtain ⟨prev, data, next⟩ := tape
  by_cases hz : pos = 0
  · subst hz
    cases prev with
    | nil =>
      cases heap with
      | zero => simp [seekTape, makeTape] at hok
      | succ h =>
        right
        right
        simp [seekTape, makeTape, TAPE_WIDTH]
    | cons b more =>
      right
      left
      simp [seekTape, TAPE_WIDTH, chain]
  · left
    have e1 : ¬ (pos - 1 < 0) := by omega
    simp only [seekTape, e1, false_and, if_false]
    refine ⟨by omega, ?_, ?_⟩ <;> trivial

/-- The three ways in which a `seekTape` to the right succeeds. -/
theorem seekTape_right_cases (heap : Nat) (tape : Tape) (pos : Int) (h1 : pos < 64)
    (hok : (seekTape heap tape pos .Right).ok = true) :
    (pos < 63 ∧ (seekTape heap tape pos .Right).tape = tape ∧
      (seekTape heap tape pos .Right).pos = pos + 1) ∨
    (pos = 63 ∧ tape.next ≠ [] ∧ chain (seekTape heap tape pos .Right).tape = chain tape ∧
      (seekTape heap tape pos .Right).tape.prev.length = tape.prev.length + 1 ∧
      (seekTape heap tape pos .Right).pos = 0) ∨
    (pos = 63 ∧ tape.next = [] ∧
      (seekTape heap tape pos .Right).tape =
        { prev := tape.data :: tape.prev, data := List.replicate TAPE_WIDTH 0, next := [] } ∧
      (seekTape heap tape pos .Right).pos = 0) := by
  obtain ⟨prev, data, next⟩ := tape
  by_cases hz : pos = 63
  · subst hz
    cases next with
    | nil =>
      cases heap with
      | zero => simp [seekTape, makeTape, TAPE_WIDTH] at hok
      | succ h =>
        right
        right
        simp [seekTape, makeTape, TAPE_WIDTH]
    | cons b more =>
      right
      left
      simp [seekTape, TAPE_WIDTH, chain]
  · left
    have e1 : ¬ (pos + 1 ≥ ((TAPE_WIDTH : Nat) : Int)) := by
      simp only [TAPE_WIDTH, Nat.cast_ofNat]
      omega
    simp only [seekTape, e1, false_and, if_false]
    refine ⟨by omega, ?_, ?_⟩ <;> trivial

theorem contents_fresh (a : Int) :
    contents 0 { prev := [], data := List.replicate TAPE_WIDTH 0, next := [] } a = 0 := by
  simp only [contents, chain, List.reverse_nil, List.nil_append]
  split_ifs
  · generalize ((0 : Nat) : Int) + a / (TAPE_WIDTH : Int) = b
    cases hb : b.toNat with
    | zero =>
      simp only [List.getElem?_cons_zero]
      exact zeros_getD _
    | succ n => simp
  · rfl

theorem shift_left : (if Direction.Left = Direction.Right then (1 : Int) else -1) = -1 := rfl

theorem shift_right : (if Direction.Right = Direction.Right then (1 : Int) else -1) = 1 := rfl

/-- C17: the chain of blocks refines an unbounded array of cells, all zero at the start. With
the address of the cursor `64 * (index of the current block from the starting block) + offset`
and the array that reads 0 outside the allocated blocks, a successful `seekTape` to the right
adds 1 to the address, one to the left subtracts 1, and both leave the array as it was; the cell
under the cursor is the cell of the array at the address. A seek that grows the tape lands on
offset 63 of the new block when it goes left and on offset 0 when it goes right, and the cell
there reads 0. -/
theorem C17_tape_refines_unbounded_array (heap origin : Nat) (tape : Tape) (pos : Int)
    (dir : Direction) (hv : CursorValid tape pos)
    (hok : (seekTape heap tape pos dir).ok = true) :
    address (originAfter origin tape pos dir) (seekTape heap tape pos dir).tape
        (seekTape heap tape pos dir).pos =
      address origin tape pos + (if dir = .Right then 1 else -1) ∧
    (∀ a, contents (originAfter origin tape pos dir) (seekTape heap tape pos dir).tape a =
      contents origin tape a) ∧
    readCell tape pos = some (contents origin tape (address origin tape pos)) ∧
    readCell (seekTape heap tape pos dir).tape (seekTape heap tape pos dir).pos =
      some (contents origin tape
        (address origin tape pos + (if dir = .Right then 1 else -1))) ∧
    (dir = .Left → pos = 0 → tape.prev = [] →
      (seekTape heap tape pos dir).pos = 63 ∧
      chain (seekTape heap tape pos dir).tape = List.replicate 64 0 :: chain tape ∧
      readCell (seekTape heap tape pos dir).tape (seekTape heap tape pos dir).pos = some 0) ∧
    (dir = .Right → pos = 63 → tape.next = [] →
      (seekTape heap tape pos dir).pos = 0 ∧
      chain (seekTape heap tape pos dir).tape = chain tape ++ [List.replicate 64 0] ∧
      readCell (seekTape heap tape pos dir).tape (seekTape heap tape pos dir).pos = some 0) ∧
    (∀ a, contents 0 { prev := [], data := List.replicate 64 0, next := [] } a = 0) := by
  have hv1 := seekTape_valid heap tape pos dir hv hok
  have hread0 := readCell_eq_contents origin tape pos hv
  obtain ⟨h0, h1, -, -, -⟩ := hv
  simp only [TAPE_WIDTH, Nat.cast_ofNat] at h1
  have haddr : address (originAfter origin tape pos dir) (seekTape heap tape pos dir).tape
      (seekTape heap tape pos dir).pos =
      address origin tape pos + (if dir = .Right then 1 else -1) := by
    cases dir with
    | Left =>
      rcases seekTape_left_cases heap tape pos h0 hok with ⟨hp, ht, hq⟩ | ⟨hp, hne, -, hl, hq⟩ |
        ⟨hp, he, ht, hq⟩
      · have : ¬ (pos - 1 < 0 ∧ tape.prev = []) := fun h => by omega
        simp only [address, originAfter, this, if_false, ht, hq, TAPE_WIDTH, Nat.cast_ofNat,
          shift_left]
        omega
      · have : ¬ (pos - 1 < 0 ∧ tape.prev = []) := fun h => hne h.2
        simp only [address, originAfter, this, if_false, hq, TAPE_WIDTH, Nat.cast_ofNat,
          shift_left]
        omega
      · have : pos - 1 < 0 ∧ tape.prev = [] := ⟨by omega, he⟩
        simp only [address, originAfter, this, and_self, if_true, hq, ht, he, TAPE_WIDTH,
          Nat.cast_ofNat, List.length_nil, shift_left]
        push_cast
        omega
    | Right =>
      rcases seekTape_right_cases heap tape pos h1 hok with ⟨hp, ht, hq⟩ | ⟨hp, hne, -, hl, hq⟩ |
        ⟨hp, he, ht, hq⟩
      · simp only [address, originAfter, ht, hq, TAPE_WIDTH, Nat.cast_ofNat, shift_right, if_true]
        omega
      · simp only [address, originAfter, hq, hl, TAPE_WIDTH, Nat.cast_ofNat, shift_right, if_true]
        push_cast
        omega
      · simp only [address, originAfter, hq, ht, TAPE_WIDTH, Nat.cast_ofNat, List.length_cons,
          shift_right, if_true]
        push_cast
        omega
  have hcont : ∀ a, contents (originAfter origin tape pos dir) (seekTape heap tape pos dir).tape
      a = contents origin tape a := by
    intro a
    cases dir with
    | Left =>
      rcases seekTape_left_cases heap tape pos h0 hok with ⟨hp, ht, hq⟩ | ⟨hp, hne, hc, hl, hq⟩ |
        ⟨hp, he, ht, hq⟩
      · have : ¬ (pos - 1 < 0 ∧ tape.prev = []) := fun h => by omega
        simp only [originAfter, this, if_false, ht]
      · have : ¬ (pos - 1 < 0 ∧ tape.prev = []) := fun h => hne h.2
        simp only [originAfter, this, if_false]
        exact contents_of_chain origin _ _ hc a
      · have : pos - 1 < 0 ∧ tape.prev = [] := ⟨by omega, he⟩
        simp only [originAfter, this, and_self, if_true]
        apply contents_grow_left
        rw [ht]
        simp [chain, he]
    | Right =>
      rcases seekTape_right_cases heap tape pos h1 hok with ⟨hp, ht, hq⟩ |
        ⟨hp, hne, hc, hl, hq⟩ | ⟨hp, he, ht, hq⟩
      · simp only [originAfter, ht]
      · simp only [originAfter]
        exact contents_of_chain origin _ _ hc a
      · simp only [originAfter]
        apply contents_grow_right
        rw [ht]
        simp [chain, he]
  have hread := readCell_eq_contents (originAfter origin tape pos dir) _ _ hv1
  rw [hcont, haddr] at hread
  refine ⟨haddr, hcont, hread0, hread, ?_, ?_, contents_fresh⟩
  · intro hd hp he
    subst hd
    rcases seekTape_left_cases heap tape pos h0 hok with ⟨hp1, -, -⟩ | ⟨-, hne, -, -, -⟩ |
      ⟨-, -, ht, hq⟩
    · omega
    · exact absurd he hne
    · refine ⟨hq, ?_, ?_⟩
      · rw [ht]
        simp [chain, he, TAPE_WIDTH]
      · rw [ht, hq]
        rfl
  · intro hd hp he
    subst hd
    rcases seekTape_right_cases heap tape pos h1 hok with ⟨hp1, -, -⟩ | ⟨-, hne, -, -, -⟩ |
      ⟨-, -, ht, hq⟩
    · omega
    · exact absurd he hne
    · refine ⟨hq, ?_, ?_⟩
      · rw [ht]
        simp [chain, he, TAPE_WIDTH]
      · rw [ht, hq]
        rfl

set_option maxRecDepth 100000 in
/-- C17 for the seek to the left from offset 0 of a single block that holds 5 in its first cell:
the address goes from 0 to -1, where the array reads 0, and address 0 still reads 5. -/
theorem C17_tape_refines_unbounded_array_witness :
    CursorValid { prev := [], data := 5 :: List.replicate 63 0, next := [] } 0 ∧
    address 0 { prev := [], data := 5 :: List.replicate 63 0, next := [] } 0 = 0 ∧
    contents 0 { prev := [], data := 5 :: List.replicate 63 0, next := [] } 0 = 5 ∧
    address 1 (seekTape 1 { prev := [], data := 5 :: List.replicate 63 0, next := [] } 0
        .Left).tape
      (seekTape 1 { prev := [], data := 5 :: List.replicate 63 0, next := [] } 0 .Left).pos =
      -1 ∧
    contents 1 (seekTape 1 { prev := [], data := 5 :: List.replicate 63 0, next := [] } 0
      .Left).tape 0 = 5 ∧
    ∀ a, contents
        (originAfter 0 { prev := [], data := 5 :: List.replicate 63 0, next := [] } 0 .Left)
        (seekTape 1 { prev := [], data := 5 :: List.replicate 63 0, next := [] } 0 .Left).tape
        a =
      contents 0 { prev := [], data := 5 :: List.replicate 63 0, next := [] } a :=
  ⟨by decide, by decide, by decide, by decide, by decide,
    (C17_tape_refines_unbounded_array 1 0
      { prev := [], data := 5 :: List.replicate 63 0, next := [] } 0 .Left (by decide)
      (by decide)).2.1⟩

/-! ### What an instruction leaves alone -/

/-- A `seekTape` leaves the chain as it is or puts one all zero block at one of its ends. -/
theorem seekTape_chain (heap : Nat) (tape : Tape) (pos : Int) (dir : Direction) :
    chain (seekTape heap tape pos dir).tape = chain tape ∨
    chain (seekTape heap tape pos dir).tape = List.replicate TAPE_WIDTH 0 :: chain tape ∨
    chain (seekTape heap tape pos dir).tape = chain tape ++ [List.replicate TAPE_WIDTH 0] := by
  obtain ⟨prev, data, next⟩ := tape
  cases dir with
  | Left =>
    by_cases h2 : pos - 1 < 0
    · cases prev with
      | nil =>
        cases heap with
        | zero =>
          left
          simp [seekTape, h2, makeTape]
        | succ h =>
          right
          left
          simp [seekTape, h2, makeTape, chain]
      | cons b more =>
        left
        simp [seekTape, h2, chain]
    · left
      simp [seekTape, h2]
  | Right =>
    by_cases h2 : pos + 1 ≥ (TAPE_WIDTH : Int)
    · cases next with
      | nil =>
        cases heap with
        | zero =>
          left
          simp [seekTape, h2, makeTape]
        | succ h =>
          right
          right
          simp [seekTape, h2, makeTape, chain]
      | cons b more =>
        left
        simp [seekTape, h2, chain]
    · left
      simp [seekTape, h2]

theorem readCell_nonneg (tape : Tape) (pos v : Int) (h : readCell tape pos = some v) :
    0 ≤ pos := by
  by_contra hneg
  simp [readCell, hneg] at h

/-- The frame of a write to the current cell. -/
theorem writeCell_frame (tape : Tape) (pos v w : Int) (h : readCell tape pos = some v) :
    (writeCell tape pos w).prev = tape.prev ∧ (writeCell tape pos w).next = tape.next ∧
      (writeCell tape pos w).data.length = tape.data.length ∧
      readCell (writeCell tape pos w) pos = some w ∧
      ∀ j, j ≠ pos → readCell (writeCell tape pos w) j = readCell tape j :=
  ⟨rfl, rfl, by simp [writeCell], readCell_writeCell tape pos v w h,
    fun j hj => readCell_writeCell_ne tape pos j w (readCell_nonneg tape pos v h) hj⟩

/-- C18: the frame of the instructions. With a cell under the cursor, `+`, `-` and `,` go on
to the next instruction and change at most that cell: every other cell of the block, the blocks
to the left and to the right, the cursor, the heap and the output are as they were. A pass at
`.`, `[` or `]` changes neither the tape nor the cursor. A pass at `>` or `<` leaves every block
of the chain as it was, and at most puts one all zero block at one end of the chain; when it
fails, the tape is as it was. -/
theorem C18_frame_of_the_instructions (style : PrintStyle) (script : List Char) (s : State) :
    (∀ c, c = '+' ∨ c = '-' ∨ c = ',' → readScript script s.i = some c →
      ∀ v, readCell s.tape s.pos = some v →
        ∃ s1 w, step style script s = .next s1 ∧ s1.i = s.i + 1 ∧ s1.pos = s.pos ∧
          s1.tape.prev = s.tape.prev ∧ s1.tape.next = s.tape.next ∧
          s1.tape.data.length = s.tape.data.length ∧
          readCell s1.tape s.pos = some w ∧
          (∀ j, j ≠ s.pos → readCell s1.tape j = readCell s.tape j) ∧
          s1.heap = s.heap ∧ s1.stdout = s.stdout ∧ (c ≠ ',' → s1.stdin = s.stdin)) ∧
    (∀ c, c = '.' ∨ c = '[' ∨ c = ']' → readScript script s.i = some c →
      ∀ s1, step style script s = .next s1 →
        s1.tape = s.tape ∧ s1.pos = s.pos ∧ s1.heap = s.heap ∧ s1.stdin = s.stdin) ∧
    (∀ c, c = '>' ∨ c = '<' → readScript script s.i = some c →
      (∀ s1, step style script s = .next s1 →
        s1.i = s.i + 1 ∧ s1.stdout = s.stdout ∧ s1.stdin = s.stdin ∧
        (chain s1.tape = chain s.tape ∨
          chain s1.tape = List.replicate 64 0 :: chain s.tape ∨
          chain s1.tape = chain s.tape ++ [List.replicate 64 0])) ∧
      (∀ s1, step style script s = .memory s1 → s1.tape = s.tape)) := by
  refine ⟨fun c hc hr v hv => ?_, fun c hc hr s1 h => ?_, fun c hc hr => ⟨fun s1 h => ?_,
    fun s1 h => (step_memory style script s s1 h).2.2.2.1⟩⟩
  · rcases hc with e | e | e <;> subst e
    · exact ⟨_, toChar (v + 1), step_plus style script s v hr hv, rfl, rfl, rfl, rfl,
        (writeCell_frame s.tape s.pos v _ hv).2.2.1, (writeCell_frame s.tape s.pos v _ hv).2.2.2.1,
        (writeCell_frame s.tape s.pos v _ hv).2.2.2.2, rfl, rfl, fun _ => rfl⟩
    · exact ⟨_, toChar (v - 1), step_minus style script s v hr hv, rfl, rfl, rfl, rfl,
        (writeCell_frame s.tape s.pos v _ hv).2.2.1, (writeCell_frame s.tape s.pos v _ hv).2.2.2.1,
        (writeCell_frame s.tape s.pos v _ hv).2.2.2.2, rfl, rfl, fun _ => rfl⟩
    · exact ⟨_, toChar (getchar s.stdin).1, step_comma style script s v hr hv, rfl, rfl, rfl,
        rfl, (writeCell_frame s.tape s.pos v _ hv).2.2.1,
        (writeCell_frame s.tape s.pos v _ hv).2.2.2.1,
        (writeCell_frame s.tape s.pos v _ hv).2.2.2.2, rfl, rfl, fun hne => absurd rfl hne⟩
  · cases hv : readCell s.tape s.pos with
    | none =>
      have hmem : c ∈ ['+', '-', '.', ',', '[', ']'] := by
        rcases hc with e | e | e <;> subst e <;> decide
      rw [step_no_cell style script s c hr hmem hv] at h
      cases h
    | some v =>
      rcases hc with e | e | e <;> subst e
      · rw [step_dot style script s v hr hv] at h
        injection h with h
        subst h
        exact ⟨rfl, rfl, rfl, rfl⟩
      · rw [step_open style script s v hr hv] at h
        split_ifs at h
        · injection h with h
          subst h
          exact ⟨rfl, rfl, rfl, rfl⟩
        · split at h
          · cases h
          · injection h with h
            subst h
            exact ⟨rfl, rfl, rfl, rfl⟩
      · rw [step_close style script s v hr hv] at h
        split_ifs at h
        · injection h with h
          subst h
          exact ⟨rfl, rfl, rfl, rfl⟩
        · split at h
          · cases h
          · injection h with h
            subst h
            exact ⟨rfl, rfl, rfl, rfl⟩
  · rcases hc with e | e <;> subst e
    · rw [step_right style script s hr] at h
      split_ifs at h
      injection h with h
      subst h
      exact ⟨rfl, rfl, rfl, seekTape_chain s.heap s.tape s.pos .Right⟩
    · rw [step_left style script s hr] at h
      split_ifs at h
      injection h with h
      subst h
      exact ⟨rfl, rfl, rfl, seekTape_chain s.heap s.tape s.pos .Left⟩

end Brainfuck
